import Mathlib

/-!
Verification of LightRAG's bounded subgraph extraction and semantic response
cache, shallowly embedded from `lightrag/kg/neo4j_impl.py`,
`lightrag/kg/postgres_impl.py` and `lightrag/utils.py`.
-/

namespace LightRAG

/-- Modelled from the spec: `GraphNode` of the shared data-model types
(`lightrag/types.py`, not in the sources): stable string id, ordered display
labels, string-keyed open-schema properties (spec section 3). -/
structure KnowledgeGraphNode where
  id : String
  labels : List String
  properties : List (String × String)
  deriving DecidableEq, Repr

/-- Modelled from the spec: `GraphEdge` of the shared data-model types
(`lightrag/types.py`, not in the sources): id, relationship kind, source and
target node ids, properties (spec section 3). -/
structure KnowledgeGraphEdge where
  id : String
  type : String
  source : String
  target : String
  properties : List (String × String)
  deriving DecidableEq, Repr

/-- Modelled from the spec: `KnowledgeGraph` extraction result
(`lightrag/types.py`, not in the sources): ordered node and edge sequences in
discovery order plus the `is_truncated` flag (spec section 3). -/
structure KnowledgeGraph where
  nodes : List KnowledgeGraphNode := []
  edges : List KnowledgeGraphEdge := []
  is_truncated : Bool := false
  deriving DecidableEq, Repr

/-- One row of the fallback neighbor query
`MATCH (a:base {entity_id: $entity_id})-[r]-(b) ... RETURN r, b, edge_id, target_id`
(`neo4j_impl.py` lines 934-938): the relationship's store id (the code renders
it with `str(...)`, so it is modelled as that string), its type and
properties, and the neighbor node's `entity_id` property (absent when the
node has none) and properties. -/
structure NeighborRecord where
  edge_id : String
  rel_type : String
  rel_properties : List (String × String)
  target_entity_id : Option String
  target_properties : List (String × String)
  deriving DecidableEq, Repr

/-- The graph capability the extractor queries (spec section 6, GraphView):
a point read of a node's properties by `entity_id` (`none` when no such node
exists), and the neighbor-record listing. -/
structure GraphView where
  getNode : String → Option (List (String × String))
  neighbors : String → List NeighborRecord

/-- The check `target_id = b_node.get("entity_id")` followed by
`if target_id:` (`neo4j_impl.py` lines 952-954): Python treats both a missing
value and the empty string as falsy. -/
def NeighborRecord.tid (r : NeighborRecord) : Option String :=
  match r.target_entity_id with
  | some t => if t = "" then none else some t
  | none => none

/-- The expression `tuple(sorted([current_node.id, target_id]))`
(`neo4j_impl.py` line 972), normalizing an undirected endpoint pair. -/
def sortPair (a b : String) : String × String :=
  if a ≤ b then (a, b) else (b, a)

/-- A BFS queue entry `(node, edge, depth)` (`neo4j_impl.py` line 894-896). -/
abbrev QueueEntry := KnowledgeGraphNode × Option KnowledgeGraphEdge × Nat

/-- The mutable state threaded through the neighbor loop of
`_robust_fallback`: `result.edges`, `visited_edges`, `visited_edge_pairs`,
and the entries appended to the BFS queue during the loop (the loop only
appends to the queue, so the appended suffix is accumulated here). -/
structure RecordsState where
  edges : List KnowledgeGraphEdge
  visited_edges : List String
  visited_edge_pairs : List (String × String)
  queue_tail : List QueueEntry
  deriving DecidableEq, Repr

/-- The `target_node` the neighbor loop builds for a record
(`neo4j_impl.py` lines 955-960). -/
def targetNode (r : NeighborRecord) (target_id : String) : KnowledgeGraphNode :=
  { id := target_id, labels := [target_id], properties := r.target_properties }

/-- The edge-append part of one `for record in records:` iteration
(`neo4j_impl.py` lines 962-983): when the normalized undirected pair is
unseen, append `target_edge` and mark the edge id and the pair, but only
when the target node is already in the result or will be added to it
(`target_id in visited_nodes or (target_id not in visited_nodes and
current_depth < max_depth)`, lines 977-980). -/
def edgeAppendStep (current_id : String) (current_depth max_depth : Nat)
    (visited_nodes : List String) (st : RecordsState) (r : NeighborRecord)
    (target_id : String) : RecordsState :=
  if sortPair current_id target_id ∈ st.visited_edge_pairs then st
  else if target_id ∈ visited_nodes ∨
      (target_id ∉ visited_nodes ∧ current_depth < max_depth) then
    { st with
      edges := st.edges ++
        [{ id := r.edge_id, type := r.rel_type, source := current_id,
           target := target_id, properties := r.rel_properties }],
      visited_edges := st.visited_edges ++ [r.edge_id],
      visited_edge_pairs := st.visited_edge_pairs ++ [sortPair current_id target_id] }
  else st

/-- One iteration of `for record in records:` (`neo4j_impl.py` lines
946-1006): skip when the edge id was seen; skip targets without a truthy
`entity_id`; run the edge-append step; enqueue unvisited targets only below
`max_depth` (`neo4j_impl.py` lines 985-997). -/
def processRecord (current_id : String) (current_depth max_depth : Nat)
    (visited_nodes : List String) (st : RecordsState) (r : NeighborRecord) :
    RecordsState :=
  if r.edge_id ∈ st.visited_edges then st
  else
    match r.tid with
    | none => st
    | some target_id =>
      if target_id ∉ visited_nodes ∧ current_depth < max_depth then
        { edgeAppendStep current_id current_depth max_depth visited_nodes st r
            target_id with
          queue_tail := (edgeAppendStep current_id current_depth max_depth
              visited_nodes st r target_id).queue_tail ++
            [(targetNode r target_id, none, current_depth + 1)] }
      else edgeAppendStep current_id current_depth max_depth visited_nodes st r
        target_id

/-- The whole neighbor loop of `_robust_fallback` over the fetched records. -/
def processRecords (current_id : String) (current_depth max_depth : Nat)
    (visited_nodes : List String) (records : List NeighborRecord)
    (st : RecordsState) : RecordsState :=
  records.foldl (processRecord current_id current_depth max_depth visited_nodes) st

/-- The loop `while queue and len(visited_nodes) < max_nodes:` of
`_robust_fallback` (`neo4j_impl.py` lines 899-1006): dequeue; skip visited
nodes and nodes beyond `max_depth`; append the node (and a pending edge, if
any) to the result; stop with `is_truncated` when the node budget is reached;
otherwise fetch at most 1000 neighbor records (`results.fetch(1000)`, line
942) and process them. -/
def bfsLoop (db : GraphView) (max_depth max_nodes : Nat) :
    List QueueEntry → KnowledgeGraph → List String → List String →
    List (String × String) → KnowledgeGraph
  | [], result, _, _, _ => result
  | (current_node, current_edge, current_depth) :: rest, result, visited_nodes,
      visited_edges, visited_edge_pairs =>
    if ¬ visited_nodes.length < max_nodes then result
    else if current_node.id ∈ visited_nodes then
      bfsLoop db max_depth max_nodes rest result visited_nodes visited_edges
        visited_edge_pairs
    else if max_depth < current_depth then
      bfsLoop db max_depth max_nodes rest result visited_nodes visited_edges
        visited_edge_pairs
    else
      let result1 := { result with nodes := result.nodes ++ [current_node] }
      let visited1 := visited_nodes ++ [current_node.id]
      let step2 : KnowledgeGraph × List String :=
        match current_edge with
        | some e =>
          if e.id ∈ visited_edges then (result1, visited_edges)
          else ({ result1 with edges := result1.edges ++ [e] }, visited_edges ++ [e.id])
        | none => (result1, visited_edges)
      if max_nodes ≤ visited1.length then
        { step2.1 with is_truncated := true }
      else
        let records := (db.neighbors current_node.id).take 1000
        let st := processRecords current_node.id current_depth max_depth visited1
          records
          { edges := step2.1.edges, visited_edges := step2.2,
            visited_edge_pairs := visited_edge_pairs, queue_tail := [] }
        bfsLoop db max_depth max_nodes (rest ++ st.queue_tail)
          { step2.1 with edges := st.edges } visited1 st.visited_edges
          st.visited_edge_pairs
  termination_by q _ v _ _ => (max_nodes - v.length, q.length)
  decreasing_by
  · simp_wf
    omega
  · simp_wf
    omega
  · simp_wf
    omega

/-- The function `_robust_fallback` (`neo4j_impl.py` lines 856-1011): look up
the start node by `entity_id` (an absent start yields the empty graph,
line 882-883), then run the BFS from `(start_node, None, 0)`. -/
def robust_fallback (db : GraphView) (node_label : String)
    (max_depth max_nodes : Nat) : KnowledgeGraph :=
  match db.getNode node_label with
  | none => {}
  | some props =>
    let start_node : KnowledgeGraphNode :=
      { id := node_label, labels := [node_label], properties := props }
    bfsLoop db max_depth max_nodes [(start_node, none, 0)] {} [] [] []

/-- The graph view whose neighbor listings are cut to their first 1000
records, matching the per-node fetch cap `results.fetch(1000)`
(`neo4j_impl.py` line 942). -/
def capNeighbors (db : GraphView) : GraphView :=
  { getNode := db.getNode, neighbors := fun n => (db.neighbors n).take 1000 }

/-- The neighbor ids a node's record listing exposes to the traversal:
targets with a truthy `entity_id`. -/
def nbrIds (db : GraphView) (x : String) : List String :=
  (db.neighbors x).filterMap NeighborRecord.tid

/-- The set of entity ids reachable from `s` in at most `k` hops along the
stored neighbor listings (the undirected adjacency the fallback traverses,
since the query `(a)-[r]-(b)` ignores direction). -/
def reachAtMost (db : GraphView) (s : String) : Nat → Finset String
  | 0 => {s}
  | k + 1 => reachAtMost db s k ∪
      (reachAtMost db s k).biUnion (fun x => (nbrIds db x).toFinset)

/-! Quantized vector codec and semantic cache (`lightrag/utils.py`).
Vector components are modelled as exact rationals. -/

/-- The function `np.round` as applied componentwise in `quantize_embedding`
(`utils.py` line 638): round half to even (banker's rounding). -/
def npRound (q : ℚ) : ℤ :=
  if q - ⌊q⌋ < 1/2 then ⌊q⌋
  else if 1/2 < q - ⌊q⌋ then ⌊q⌋ + 1
  else if ⌊q⌋ % 2 = 0 then ⌊q⌋ else ⌊q⌋ + 1

/-- The call `embedding.min()` (`utils.py` line 633); NumPy raises on an
empty array, so the empty case is given a dummy value and every statement
about it carries a nonemptiness consequence. -/
def embMin : List ℚ → ℚ
  | [] => 0
  | x :: xs => xs.foldl min x

/-- The call `embedding.max()` (`utils.py` line 634). -/
def embMax : List ℚ → ℚ
  | [] => 0
  | x :: xs => xs.foldl max x

/-- The divisor `max_val - min_val` of the expression
`scale = (2**bits - 1) / (max_val - min_val)` (`utils.py` line 637). -/
def quantize_scale_divisor (embedding : List ℚ) : ℚ :=
  embMax embedding - embMin embedding

/-- The function `quantize_embedding` (`utils.py` lines 626-640) with the
default `bits = 8`: `scale = (2**bits - 1) / (max - min)`, each component
`round((x - min) * scale)` cast to `uint8`.  The `astype(np.uint8)` cast is
modelled as `% 256`; for a non-constant vector the rounded values lie in
`[0, 255]` so the cast is the identity there.  For a constant vector the
divisor of `scale` is zero: NumPy evaluates `255 / 0.0` to `inf` (a
floating-point division by zero) and `0.0 * inf` to NaN rather than raising,
so the model's total division is only meaningful when `max ≠ min`; see the
theorem for claim C7. -/
def quantize_embedding (embedding : List ℚ) (bits : Nat := 8) :
    List ℤ × ℚ × ℚ :=
  let min_val := embMin embedding
  let max_val := embMax embedding
  let scale := ((2 ^ bits - 1 : ℚ)) / (max_val - min_val)
  (embedding.map (fun x => npRound ((x - min_val) * scale) % 256),
    min_val, max_val)

/-- The function `dequantize_embedding` (`utils.py` lines 643-648):
`scale = (max - min) / (2**bits - 1)`; reconstruct `quantized * scale + min`
(the final `float32` cast is not modelled; arithmetic is exact here). -/
def dequantize_embedding (quantized : List ℤ) (min_val max_val : ℚ)
    (bits : Nat := 8) : List ℚ :=
  let scale := (max_val - min_val) / ((2 ^ bits - 1 : ℚ))
  quantized.map (fun b : ℤ => (b : ℚ) * scale + min_val)

/-- The expression `np.dot(v1, v2)` in `cosine_similarity`
(`utils.py` line 620). -/
def dotProduct (v1 v2 : List ℚ) : ℚ :=
  (v1.zip v2).foldl (fun acc p => acc + p.1 * p.2) 0

/-- The square of `np.linalg.norm(v)` (`utils.py` lines 621-622). -/
def normSq (v : List ℚ) : ℚ := dotProduct v v

/-- The square of the divisor `norm1 * norm2` of `cosine_similarity`
(`utils.py` line 623): the divisor is `sqrt (normSq v1) * sqrt (normSq v2)`,
which is zero exactly when this product is zero. -/
def cosine_divisor_sq (v1 v2 : List ℚ) : ℚ := normSq v1 * normSq v2

/-- A stored cache entry as written by `save_to_cache`
(`utils.py` lines 765-777) and read back by `get_best_cached_response`:
the `return` payload (field `ret` here), `cache_type`, the quantized
embedding byte payload (hex-decoded into its byte list), its shape and
min/max reconstruction scalars, and the original prompt. -/
structure CacheEntry where
  ret : String
  cache_type : String
  embedding : Option (List ℤ)
  embedding_shape : Option (List Nat)
  embedding_min : Option ℚ
  embedding_max : Option ℚ
  original_prompt : String
  deriving DecidableEq, Repr

/-- The dataclass `CacheData` (`utils.py` lines 718-727).  `content` carries
the payload; the source additionally skips contents that are async iterators
(in-progress streamed values, detected via `__aiter__`, line 742), modelled
by the `streaming` flag. -/
structure CacheData where
  args_hash : String
  content : String
  prompt : String
  quantized : Option (List ℤ) := none
  min_val : Option ℚ := none
  max_val : Option ℚ := none
  mode : String := "default"
  cache_type : String := "query"
  streaming : Bool := false
  deriving DecidableEq, Repr

/-- A mode bucket: the per-mode dict from `args_hash` to entry, modelled as
an association list in insertion order (Python dicts preserve it). -/
abbrev ModeBucket := List (String × CacheEntry)

/-- Dict lookup `mode_cache[args_hash]` / `args_hash in mode_cache`. -/
def bucketFind (b : ModeBucket) (k : String) : Option CacheEntry :=
  (b.find? (fun p => p.1 = k)).map Prod.snd

/-- Dict write `mode_cache[args_hash] = entry`: replace in place when the key
exists, otherwise append (Python dict update semantics). -/
def bucketInsert (b : ModeBucket) (k : String) (e : CacheEntry) : ModeBucket :=
  if (b.find? (fun p => p.1 = k)).isSome then
    b.map (fun p => if p.1 = k then (k, e) else p)
  else b ++ [(k, e)]

/-- The function `save_to_cache` (`utils.py` lines 730-780) acting on the
fetched mode bucket: skip falsy or streaming content; skip when an entry at
`args_hash` already stores an identical `return`; otherwise build the entry
and upsert the whole bucket.  Returns `some` of the bucket handed to
`upsert` when a write happens and `none` when the function returns without
writing. -/
def save_to_cache (mode_cache : ModeBucket) (cache_data : CacheData) :
    Option ModeBucket :=
  if cache_data.content = "" then none
  else if cache_data.streaming then none
  else
    let entry : CacheEntry :=
      { ret := cache_data.content,
        cache_type := cache_data.cache_type,
        embedding := cache_data.quantized,
        embedding_shape := (cache_data.quantized.map (fun q => [q.length])),
        embedding_min := cache_data.min_val,
        embedding_max := cache_data.max_val,
        original_prompt := cache_data.prompt }
    match bucketFind mode_cache cache_data.args_hash with
    | some existing =>
      if existing.ret = cache_data.content then none
      else some (bucketInsert mode_cache cache_data.args_hash entry)
    | none => some (bucketInsert mode_cache cache_data.args_hash entry)

/-- The stored-bucket state after one `save_to_cache` call: the written
bucket when a write happened, the unchanged bucket otherwise. -/
def applySave (mode_cache : ModeBucket) (cache_data : CacheData) : ModeBucket :=
  (save_to_cache mode_cache cache_data).getD mode_cache

/-- The outcome of the verifier call `llm_result = await llm_func(...)`
followed by `float(llm_result.strip())` (`utils.py` lines 575-577): either a
parsed numeric score, or a failure (the call raised, or the reply did not
parse as a number) caught by the `except` at line 598. -/
inductive LLMOutcome where
  | failed
  | score (s : ℚ)
  deriving DecidableEq, Repr

/-- The error a semantic-cache lookup can abort with: the `ValueError` that
`np.ndarray.reshape` raises when the byte payload does not match the stored
shape (`utils.py` lines 545-547). -/
inductive LookupError where
  | reshape_mismatch
  deriving DecidableEq, Repr

/-- The best-match accumulator of the scan loop (`utils.py` lines 530-533),
initialized to similarity `-1` and `None` fields. -/
structure BestState where
  best_similarity : ℚ
  best_response : Option String
  best_prompt : Option String
  best_cache_id : Option String
  deriving DecidableEq, Repr

/-- Python truthiness of an optional string: `None` and `""` are falsy. -/
def truthyStr : Option String → Bool
  | none => false
  | some s => !decide (s = "")

/-- The guard `if cache_type and cache_data.get("cache_type") != cache_type:`
(`utils.py` line 538): with a falsy `cache_type` no filtering happens. -/
def ctSkips (cache_type : Option String) (cache_data : CacheEntry) : Bool :=
  match cache_type with
  | none => false
  | some ct => if ct = "" then false else decide (cache_data.cache_type ≠ ct)

/-- The element count of a NumPy shape. -/
def shapeSize (shape : List Nat) : Nat := shape.foldl (· * ·) 1

/-- The scan loop `for cache_id, cache_data in mode_cache.items():`
(`utils.py` lines 536-559): skip entries failing the `cache_type` filter or
storing no embedding; decode the stored bytes (`np.frombuffer(...).reshape(
cache_data["embedding_shape"])` raises `ValueError` when the byte count does
not match the shape — modelled as `Except.error`, aborting the scan);
dequantize and compare with the query embedding, keeping the strictly best.
The similarity capability `cosine_similarity` is the function argument `sim`
(its NumPy float arithmetic, in particular the square roots inside the
norms, is external to this rational model; see `cosine_divisor_sq` for the
zero-divisor analysis of the source formula). -/
def scan_mode_cache (sim : List ℚ → List ℚ → ℚ) (current_embedding : List ℚ)
    (cache_type : Option String) :
    List (String × CacheEntry) → BestState → Except LookupError BestState
  | [], st => .ok st
  | (cache_id, cache_data) :: rest, st =>
    if ctSkips cache_type cache_data then
      scan_mode_cache sim current_embedding cache_type rest st
    else
      match cache_data.embedding with
      | none => scan_mode_cache sim current_embedding cache_type rest st
      | some bytes =>
        match cache_data.embedding_shape with
        | none => .error .reshape_mismatch
        | some shape =>
          if shapeSize shape ≠ bytes.length then .error .reshape_mismatch
          else
            let cached_embedding := dequantize_embedding bytes
              (cache_data.embedding_min.getD 0) (cache_data.embedding_max.getD 0)
            let similarity := sim current_embedding cached_embedding
            let st1 :=
              if st.best_similarity < similarity then
                { best_similarity := similarity,
                  best_response := some cache_data.ret,
                  best_prompt := some cache_data.original_prompt,
                  best_cache_id := some cache_id }
              else st
            scan_mode_cache sim current_embedding cache_type rest st1

/-- The tail of `get_best_cached_response` after the scan loop
(`utils.py` lines 561-615): a hit needs `best_similarity` strictly above the
threshold; when LLM verification is enabled and all its inputs are truthy,
the verifier's numeric score replaces the vector similarity (`utils.py`
line 580), a replaced score strictly below the threshold is rejected
(line 581) and a failed call returns `None` (line 600); otherwise the cached
payload is returned. -/
def llm_verification_stage (similarity_threshold : ℚ) (use_llm_check : Bool)
    (llm_func : Option LLMOutcome) (original_prompt : Option String)
    (st : BestState) : Option String :=
  if similarity_threshold < st.best_similarity then
    if use_llm_check && llm_func.isSome && truthyStr original_prompt &&
        truthyStr st.best_prompt && st.best_response.isSome then
      match llm_func with
      | some .failed => none
      | some (.score llm_similarity) =>
        if llm_similarity < similarity_threshold then none else st.best_response
      | none => st.best_response
    else st.best_response
  else none

/-- The function `get_best_cached_response` (`utils.py` lines 512-615) for a
fetched mode bucket: a missing or empty bucket short-circuits to `None`
(`if not mode_cache: return None`, lines 526-528); otherwise scan the bucket
and run the threshold/verification tail. -/
def get_best_cached_response (sim : List ℚ → List ℚ → ℚ)
    (mode_cache : Option (List (String × CacheEntry)))
    (current_embedding : List ℚ) (similarity_threshold : ℚ)
    (use_llm_check : Bool) (llm_func : Option LLMOutcome)
    (original_prompt : Option String) (cache_type : Option String) :
    Except LookupError (Option String) :=
  match mode_cache with
  | none => .ok none
  | some entries =>
    if entries.isEmpty then .ok none
    else
      match scan_mode_cache sim current_embedding cache_type entries
          { best_similarity := -1, best_response := none, best_prompt := none,
            best_cache_id := none } with
      | .error e => .error e
      | .ok st =>
        .ok (llm_verification_stage similarity_threshold use_llm_check
          llm_func original_prompt st)

/-- The entity id a queue entry carries. -/
def qId (e : QueueEntry) : String := e.1.id

/-- The depth a queue entry carries. -/
def qDepth (e : QueueEntry) : Nat := e.2.2

/-- Coverage of an id `t` relative to the processed list `pd` (ids with the
depth they were processed at) and the pending queue: `t` was processed at
depth at most `d0 + 1`, or an entry for `t` of depth at most `d0 + 1` is
queued. -/
def CovQ (pd : List (String × Nat)) (queue : List QueueEntry) (d0 : Nat)
    (t : String) : Prop :=
  (∃ dt, dt ≤ d0 + 1 ∧ (t, dt) ∈ pd) ∨
  (∃ e ∈ queue, qId e = t ∧ qDepth e ≤ d0 + 1)

/-- Every id in `visited_edges` was recorded while processing some node `y`
(at depth `dy`) from one of `y`'s own neighbor records, and that record's
target is covered at depth `dy + 1`. -/
def VEWitness (db : GraphView) (pd : List (String × Nat))
    (queue : List QueueEntry) (eid : String) : Prop :=
  ∃ y dy z, (y, dy) ∈ pd ∧
    (∃ r ∈ db.neighbors y, r.edge_id = eid ∧ r.tid = some z) ∧
    CovQ pd queue dy z

/-- Store-assigned relationship ids are coherent: records carrying the same
edge id, wherever they are listed, describe the same undirected endpoint
pair (a real graph store lists each relationship once from each endpoint). -/
def EdgeCoherent (db : GraphView) : Prop :=
  ∀ a b ra rb, ra ∈ db.neighbors a → rb ∈ db.neighbors b →
    ra.edge_id = rb.edge_id →
    ∀ ta tb, ra.tid = some ta → rb.tid = some tb →
      (a = b ∧ ta = tb) ∨ (a = tb ∧ b = ta)

/-- Concrete three-node chain `A - B - C` (edge `e1` between `A` and `B`,
edge `e2` between `B` and `C`), exposed through the fallback neighbor
listing; each edge shows up in both its endpoints' listings, as the
undirected Cypher match does. -/
def chainDB : GraphView :=
  { getNode := fun s => if s = "A" ∨ s = "B" ∨ s = "C" then some [] else none,
    neighbors := fun s =>
      if s = "A" then
        [{ edge_id := "e1", rel_type := "RELATED", rel_properties := [],
           target_entity_id := some "B", target_properties := [] }]
      else if s = "B" then
        [{ edge_id := "e1", rel_type := "RELATED", rel_properties := [],
           target_entity_id := some "A", target_properties := [] },
         { edge_id := "e2", rel_type := "RELATED", rel_properties := [],
           target_entity_id := some "C", target_properties := [] }]
      else if s = "C" then
        [{ edge_id := "e2", rel_type := "RELATED", rel_properties := [],
           target_entity_id := some "B", target_properties := [] }]
      else [] }

/-- Concrete single-node graph (no edges) for the claim C1 boundary case. -/
def singleDB : GraphView :=
  { getNode := fun s => if s = "A" then some [] else none,
    neighbors := fun _ => [] }

/-- An entry the scan loop of `get_best_cached_response` passes over without
touching its embedding: the `cache_type` filter excludes it
(`utils.py` line 538) or it stores no embedding (line 541). -/
def scanSkips (ct : Option String) (cd : CacheEntry) : Prop :=
  ctSkips ct cd = true ∨ cd.embedding = none

/-- An embedding-bearing entry whose byte payload matches its stored shape,
so `np.frombuffer(...).reshape(...)` succeeds. -/
def WellShapedEntry (cd : CacheEntry) : Prop :=
  ∀ bytes, cd.embedding = some bytes →
    ∃ shape, cd.embedding_shape = some shape ∧ shapeSize shape = bytes.length

/-- An embedding-bearing entry whose byte payload does not match its stored
shape: `reshape` raises `ValueError` on it. -/
def MalformedEntry (cd : CacheEntry) : Prop :=
  ∃ bytes, cd.embedding = some bytes ∧
    ∀ shape, cd.embedding_shape = some shape → shapeSize shape ≠ bytes.length

/-- Concrete entry for the claim C5 analysis: well-formed, one byte. -/
def c5Entry : CacheEntry :=
  { ret := "resp", cache_type := "query", embedding := some [0],
    embedding_shape := some [1], embedding_min := some 0,
    embedding_max := some 0, original_prompt := "cached" }

/-- Concrete malformed entry for the claim C9 analysis: two payload bytes
against a stored shape of three. -/
def c9Bad : CacheEntry :=
  { ret := "bad", cache_type := "query", embedding := some [0, 0],
    embedding_shape := some [3], embedding_min := some 0,
    embedding_max := some 0, original_prompt := "pb" }

/-- Concrete well-formed entry behind the malformed one for claim C9. -/
def c9Good : CacheEntry :=
  { ret := "resp2", cache_type := "query", embedding := some [0],
    embedding_shape := some [1], embedding_min := some 0,
    embedding_max := some 0, original_prompt := "pg" }

/-! The APOC-path record processing of the Neo4j `get_knowledge_graph`
(`neo4j_impl.py` lines 806-836) and the row processing of the PostgreSQL
`get_knowledge_graph` (`postgres_impl.py` lines 1547-1602). -/

/-- One node row of `record["node_info"]` (`neo4j_impl.py` lines 808-819):
the store id (the code renders it with `f"..."`, so it is modelled as that
string), the `entity_id` property used as the label, and the property map. -/
structure NeoNodeRow where
  node_id : String
  entity_id : String
  props : List (String × String)
  deriving DecidableEq, Repr

/-- One relationship of `record["relationships"]`
(`neo4j_impl.py` lines 822-836). -/
structure NeoRelRow where
  rel_id : String
  rel_type : String
  start_id : String
  end_id : String
  props : List (String × String)
  deriving DecidableEq, Repr

/-- The node loop `for node_info in record["node_info"]:`
(`neo4j_impl.py` lines 808-819): append nodes with unseen store ids,
tracking `seen_nodes`. -/
def neo4jCollectNodes :
    List NeoNodeRow → List KnowledgeGraphNode → List String →
    List KnowledgeGraphNode × List String
  | [], acc, seen => (acc, seen)
  | row :: rest, acc, seen =>
    if row.node_id ∈ seen then neo4jCollectNodes rest acc seen
    else neo4jCollectNodes rest
      (acc ++ [{ id := row.node_id, labels := [row.entity_id], properties := row.props }])
      (seen ++ [row.node_id])

/-- The relationship loop `for rel in record["relationships"]:`
(`neo4j_impl.py` lines 822-836): append edges with unseen store ids,
tracking `seen_edges`. -/
def neo4jCollectEdges :
    List NeoRelRow → List KnowledgeGraphEdge → List String →
    List KnowledgeGraphEdge × List String
  | [], acc, seen => (acc, seen)
  | row :: rest, acc, seen =>
    if row.rel_id ∈ seen then neo4jCollectEdges rest acc seen
    else neo4jCollectEdges rest
      (acc ++ [{ id := row.rel_id, type := row.rel_type, source := row.start_id,
                 target := row.end_id, properties := row.props : KnowledgeGraphEdge }])
      (seen ++ [row.rel_id])

/-- The APOC record processing of `get_knowledge_graph` (`neo4j_impl.py`
lines 806-836), starting from the empty `seen_nodes` / `seen_edges` sets the
function initializes (lines 670-672); `is_truncated` was set earlier from
the count query, for both the wildcard and the labeled branch. -/
def neo4j_get_knowledge_graph (node_info : List NeoNodeRow)
    (relationships : List NeoRelRow) (is_trunc : Bool) : KnowledgeGraph :=
  { nodes := (neo4jCollectNodes node_info [] []).1,
    edges := (neo4jCollectEdges relationships [] []).1,
    is_truncated := is_trunc }

/-- One node dict of the AGE query result (`postgres_impl.py` lines
1552-1570): `str(node["id"])` and `node["properties"]["entity_id"]`. -/
structure PGNodeRow where
  id : String
  entity_id : String
  props : List (String × String)
  deriving DecidableEq, Repr

/-- One edge dict of the AGE query result (`postgres_impl.py` lines
1572-1595). -/
structure PGEdgeRow where
  id : String
  start_id : String
  end_id : String
  props : List (String × String)
  deriving DecidableEq, Repr

/-- One result row (`postgres_impl.py` lines 1550-1595): the `n` and `r`
columns, each absent, a single dict, or a list of dicts; the code handles
the single and the list case with the same per-dict body, so both are
modelled as a list here (empty when absent). -/
structure PGRow where
  n : List PGNodeRow
  r : List PGEdgeRow
  deriving DecidableEq, Repr

/-- The guarded dict write `if key not in d: d[key] = v` used for
`nodes_dict` and `edges_dict` (`postgres_impl.py` lines 1554, 1565, 1575,
1588). -/
def dictInsertIfAbsent {α : Type} (d : List (String × α)) (k : String)
    (v : α) : List (String × α) :=
  if (d.find? (fun p => p.1 = k)).isSome then d else d ++ [(k, v)]

/-- The row-processing loop of the PostgreSQL `get_knowledge_graph`
(`postgres_impl.py` lines 1550-1595), building `nodes_dict` and
`edges_dict`. -/
def pgCollect (rows : List PGRow) :
    List (String × KnowledgeGraphNode) × List (String × KnowledgeGraphEdge) :=
  rows.foldl (fun acc row =>
    let nd := row.n.foldl (fun d node =>
      dictInsertIfAbsent d node.id
        { id := node.id, labels := [node.entity_id], properties := node.props }) acc.1
    let ed := row.r.foldl (fun d edge =>
      dictInsertIfAbsent d edge.id
        { id := edge.id, type := "DIRECTED", source := edge.start_id,
          target := edge.end_id, properties := edge.props }) acc.2
    (nd, ed)) ([], [])

/-- Well-formedness of an id-keyed dict: keys are distinct and each stored
value carries its key as id. -/
def DictKeyed {α : Type} (f : α → String) (d : List (String × α)) : Prop :=
  (d.map Prod.fst).Nodup ∧ ∀ p ∈ d, f p.2 = p.1

/-- The PostgreSQL `get_knowledge_graph` result assembly (`postgres_impl.py`
lines 1526 and 1597-1602): deduplicated dict values in insertion order, and
`is_truncated = total_nodes > max_nodes` computed from the count query. -/
def pg_get_knowledge_graph (rows : List PGRow) (total_nodes max_nodes : Nat) :
    KnowledgeGraph :=
  { nodes := (pgCollect rows).1.map Prod.snd,
    edges := (pgCollect rows).2.map Prod.snd,
    is_truncated := decide (total_nodes > max_nodes) }

/-! Theorems. -/

/-- C7: for a constant vector the divisor `max_val - min_val` of the scale
expression `scale = (2**bits - 1) / (max_val - min_val)` in
`quantize_embedding` (`utils.py` line 637) is zero: the code performs the
division by zero the claim says it avoids (NumPy yields `inf`, the
subsequent `0.0 * inf` yields NaN, and the `uint8` cast of NaN is
undefined — there is no `max == min` guard in the source). -/
theorem C7_constant_vector_scale_divides_by_zero :
    quantize_scale_divisor [(1 : ℚ)/2, 1/2] = 0 := by
  norm_num [quantize_scale_divisor, embMax, embMin]

/-- C8: for the all-zero first vector, `cosine_similarity`
(`utils.py` lines 618-623) evaluates `0 / (0 * norm2)`: the dot product and
the squared norm divisor are both zero, so the code performs `0.0 / 0.0`
(NaN under IEEE arithmetic, with no zero guard) instead of returning the
similarity 0 the claim requires. -/
theorem C8_zero_vector_cosine_divides_by_zero :
    dotProduct [(0 : ℚ), 0] [1, 0] = 0 ∧
    cosine_divisor_sq [(0 : ℚ), 0] [1, 0] = 0 := by
  constructor <;> norm_num [cosine_divisor_sq, normSq, dotProduct]

theorem bucketFind_bucketInsert (b : ModeBucket) (k : String) (e : CacheEntry) :
    bucketFind (bucketInsert b k e) k = some e := by
  unfold bucketInsert
  by_cases h : (b.find? (fun p => p.1 = k)).isSome
  · simp only [h, if_true]
    induction b with
    | nil => simp at h
    | cons hd tl ih =>
      by_cases hk : hd.1 = k
      · simp [bucketFind, List.find?, hk]
      · simp only [List.map_cons, if_neg hk]
        have htl : (tl.find? (fun p => p.1 = k)).isSome := by
          simp only [List.find?, hk] at h
          simpa [decide_eq_true_eq, hk] using h
        have := ih htl
        simpa [bucketFind, List.find?, hk] using this
  · simp only [h, if_false]
    induction b with
    | nil => simp [bucketFind, List.find?]
    | cons hd tl ih =>
      have hk : ¬ hd.1 = k := by
        intro hkk
        apply h
        simp [List.find?, hkk]
      have htl : ¬ (tl.find? (fun p => p.1 = k)).isSome := by
        intro habs
        apply h
        simp only [List.find?]
        cases hdec : (decide (hd.1 = k)) with
        | false => exact habs
        | true => simp
      simpa [bucketFind, List.find?, hk] using ih htl

/-- C4: a second `save_to_cache` with identical content performs no write:
the first call leaves the bucket holding (or already holding) an entry at
`args_hash` whose `return` equals the content, so the second call hits the
skip branch at `utils.py` lines 756-762 and returns before `upsert`. -/
theorem C4_second_save_is_noop (b : ModeBucket) (cd : CacheData)
    (hc : cd.content ≠ "") (hs : cd.streaming = false) :
    save_to_cache (applySave b cd) cd = none := by
  unfold applySave
  cases hsv : save_to_cache b cd with
  | none =>
    simpa [Option.getD] using hsv
  | some b1 =>
    simp only [Option.getD]
    unfold save_to_cache at hsv ⊢
    simp only [if_neg hc, hs, Bool.false_eq_true, if_false] at hsv ⊢
    cases hfind : bucketFind b cd.args_hash with
    | none =>
      simp only [hfind] at hsv
      have hb1 : b1 = bucketInsert b cd.args_hash
          { ret := cd.content, cache_type := cd.cache_type,
            embedding := cd.quantized,
            embedding_shape := (cd.quantized.map (fun q => [q.length])),
            embedding_min := cd.min_val, embedding_max := cd.max_val,
            original_prompt := cd.prompt } := by
        exact (Option.some_inj.mp hsv).symm
      rw [hb1, bucketFind_bucketInsert]
      simp
    | some existing =>
      simp only [hfind] at hsv
      by_cases heq : existing.ret = cd.content
      · simp [heq] at hsv
      · simp only [if_neg heq] at hsv
        have hb1 : b1 = bucketInsert b cd.args_hash
            { ret := cd.content, cache_type := cd.cache_type,
              embedding := cd.quantized,
              embedding_shape := (cd.quantized.map (fun q => [q.length])),
              embedding_min := cd.min_val, embedding_max := cd.max_val,
              original_prompt := cd.prompt } := by
          exact (Option.some_inj.mp hsv).symm
        rw [hb1, bucketFind_bucketInsert]
        simp

/-- Witness for C4 at a concrete bucket and cache datum. -/
theorem C4_second_save_is_noop_witness :
    ("payload" : String) ≠ "" ∧
    save_to_cache
      (applySave [] { args_hash := "h", content := "payload", prompt := "p" })
      { args_hash := "h", content := "payload", prompt := "p" } = none :=
  ⟨by decide,
   C4_second_save_is_noop []
     { args_hash := "h", content := "payload", prompt := "p" }
     (by decide) rfl⟩

theorem foldl_min_le_init (xs : List ℚ) (a : ℚ) : xs.foldl min a ≤ a := by
  induction xs generalizing a with
  | nil => exact le_refl a
  | cons x xs ih => exact le_trans (ih (min a x)) (min_le_left a x)

theorem foldl_min_le_mem (xs : List ℚ) (a x : ℚ) (hx : x ∈ xs) :
    xs.foldl min a ≤ x := by
  induction xs generalizing a with
  | nil => cases hx
  | cons y ys ih =>
    rcases List.mem_cons.mp hx with h | h
    · subst h
      exact le_trans (foldl_min_le_init ys (min a x)) (min_le_right a x)
    · exact ih (min a y) h


theorem init_le_foldl_max (xs : List ℚ) (a : ℚ) : a ≤ xs.foldl max a := by
  induction xs generalizing a with
  | nil => exact le_refl a
  | cons x xs ih => exact le_trans (le_max_left a x) (ih (max a x))

theorem mem_le_foldl_max (xs : List ℚ) (a x : ℚ) (hx : x ∈ xs) :
    x ≤ xs.foldl max a := by
  induction xs generalizing a with
  | nil => cases hx
  | cons y ys ih =>
    rcases List.mem_cons.mp hx with h | h
    · subst h
      exact le_trans (le_max_right a x) (init_le_foldl_max ys (max a x))
    · exact ih (max a y) h

theorem embMin_le_mem (v : List ℚ) (x : ℚ) (hx : x ∈ v) : embMin v ≤ x := by
  cases v with
  | nil => cases hx
  | cons y ys =>
    rcases List.mem_cons.mp hx with h | h
    · subst h
      exact foldl_min_le_init ys x
    · exact foldl_min_le_mem ys y x h

theorem mem_le_embMax (v : List ℚ) (x : ℚ) (hx : x ∈ v) : x ≤ embMax v := by
  cases v with
  | nil => cases hx
  | cons y ys =>
    rcases List.mem_cons.mp hx with h | h
    · subst h
      exact init_le_foldl_max ys x
    · exact mem_le_foldl_max ys y x h

theorem npRound_sub_abs_le (q : ℚ) : |(npRound q : ℚ) - q| ≤ 1/2 := by
  have h0 : ((⌊q⌋ : ℚ)) ≤ q := Int.floor_le q
  have h1 : q < (⌊q⌋ : ℚ) + 1 := Int.lt_floor_add_one q
  unfold npRound
  split_ifs with hr1 hr2 hev
  · rw [abs_le]
    constructor <;> linarith
  · rw [abs_le]
    push_cast
    constructor <;> linarith
  · rw [abs_le]
    constructor <;> linarith
  · rw [abs_le]
    push_cast
    constructor <;> linarith

theorem npRound_nonneg (q : ℚ) (h : 0 ≤ q) : 0 ≤ npRound q := by
  have h0 : (0 : ℤ) ≤ ⌊q⌋ := Int.floor_nonneg.mpr h
  unfold npRound
  split_ifs <;> omega

theorem npRound_le_255 (q : ℚ) (h : q ≤ 255) : npRound q ≤ 255 := by
  have h0 : ⌊q⌋ ≤ 255 := by
    have := Int.floor_le_floor h
    simpa using this
  have h0q : ((⌊q⌋ : ℚ)) ≤ q := Int.floor_le q
  unfold npRound
  split_ifs with hr1 hr2 hev
  · exact h0
  · -- in this branch 1/2 < q - floor q, so floor q ≤ q - 1/2 ≤ 509/2
    have hfq : ((⌊q⌋ : ℚ)) ≤ 509/2 := by linarith
    have : ⌊q⌋ ≤ 254 := by
      have h2 : ⌊q⌋ ≤ ⌊(509/2 : ℚ)⌋ := Int.le_floor.mpr hfq
      have h3 : ⌊(509/2 : ℚ)⌋ = 254 := by norm_num [Int.floor_eq_iff]
      omega
    omega
  · exact h0
  · have hr : ¬ q - (⌊q⌋ : ℚ) < 1/2 := hr1
    have hfq : ((⌊q⌋ : ℚ)) ≤ 509/2 := by
      push_neg at hr
      linarith
    have : ⌊q⌋ ≤ 254 := by
      have h2 : ⌊q⌋ ≤ ⌊(509/2 : ℚ)⌋ := Int.le_floor.mpr hfq
      have h3 : ⌊(509/2 : ℚ)⌋ = 254 := by norm_num [Int.floor_eq_iff]
      omega
    omega

/-- Pointwise reconstruction bound for one component `x` of a non-constant
vector with extrema `mn < mx`. -/
theorem quantize_pointwise_bound (mn mx x : ℚ) (hlt : mn < mx)
    (hxl : mn ≤ x) (hxr : x ≤ mx) :
    |((npRound ((x - mn) * (255 / (mx - mn))) % 256 : ℤ) : ℚ) *
        ((mx - mn) / 255) + mn - x| ≤ (mx - mn) / 255 := by
  set y : ℚ := (x - mn) * (255 / (mx - mn)) with hy
  have hden : (0 : ℚ) < mx - mn := by linarith
  have hy0 : 0 ≤ y := by
    apply mul_nonneg (by linarith)
    positivity
  have hy255 : y ≤ 255 := by
    rw [hy, mul_comm, div_mul_eq_mul_div, div_le_iff hden]
    nlinarith
  have hq0 : 0 ≤ npRound y := npRound_nonneg y hy0
  have hq255 : npRound y ≤ 255 := npRound_le_255 y hy255
  have hmod : npRound y % 256 = npRound y := Int.emod_eq_of_lt hq0 (by omega)
  rw [hmod]
  have hclose : |(npRound y : ℚ) - y| ≤ 1/2 := npRound_sub_abs_le y
  have hys : y * ((mx - mn) / 255) = x - mn := by
    rw [hy]
    field_simp
  have hrew : ((npRound y : ℚ)) * ((mx - mn) / 255) + mn - x
      = ((npRound y : ℚ) - y) * ((mx - mn) / 255) := by
    rw [sub_mul, hys]
    ring
  rw [hrew, abs_mul]
  have habs : |(mx - mn) / 255| = (mx - mn) / 255 := by
    rw [abs_of_pos]
    positivity
  rw [habs]
  have hhalf : |(npRound y : ℚ) - y| * ((mx - mn) / 255) ≤
      (1/2) * ((mx - mn) / 255) := by
    apply mul_le_mul_of_nonneg_right hclose
    positivity
  have : (1/2 : ℚ) * ((mx - mn) / 255) ≤ (mx - mn) / 255 := by
    nlinarith
  linarith

/-- C6: componentwise reconstruction error of `dequantize_embedding` after
`quantize_embedding` (`utils.py` lines 626-648) is at most
`(max - min) / 255` whenever the vector's maximum strictly exceeds its
minimum (the achieved bound is in fact `(max - min) / 510`; the claim's
bound holds a fortiori). -/
theorem C6_roundtrip_error_bound (v : List ℚ) (h : embMin v < embMax v)
    (i : Nat) (hi : i < v.length) :
    |(dequantize_embedding (quantize_embedding v).1 (quantize_embedding v).2.1
        (quantize_embedding v).2.2).getD i 0 - v.getD i 0| ≤
      (embMax v - embMin v) / 255 := by
  have hx : v.getD i 0 ∈ v := by
    rw [List.getD_eq_getElem v 0 hi]
    exact List.getElem_mem hi
  set x : ℚ := v.getD i 0 with hxdef
  have hq1 : (quantize_embedding v).1 = v.map
      (fun z => npRound ((z - embMin v) * ((2 ^ 8 - 1 : ℚ) / (embMax v - embMin v))) % 256) := rfl
  have hq2 : (quantize_embedding v).2.1 = embMin v := rfl
  have hq3 : (quantize_embedding v).2.2 = embMax v := rfl
  have hdq : ∀ (q : List ℤ), dequantize_embedding q (embMin v) (embMax v)
      = q.map (fun b : ℤ => (b : ℚ) * ((embMax v - embMin v) / (2 ^ 8 - 1 : ℚ)) + embMin v) :=
    fun q => rfl
  have hdec : (dequantize_embedding (quantize_embedding v).1
      (quantize_embedding v).2.1 (quantize_embedding v).2.2).getD i 0
      = ((npRound ((x - embMin v) * ((2 ^ 8 - 1 : ℚ) / (embMax v - embMin v))) % 256 : ℤ) : ℚ) *
        ((embMax v - embMin v) / (2 ^ 8 - 1 : ℚ)) + embMin v := by
    rw [hq1, hq2, hq3, hdq, List.map_map]
    have hlen : i < (v.map ((fun b : ℤ => (b : ℚ) * ((embMax v - embMin v) / (2 ^ 8 - 1 : ℚ)) + embMin v) ∘
        (fun z => npRound ((z - embMin v) * ((2 ^ 8 - 1 : ℚ) / (embMax v - embMin v))) % 256))).length := by
      simpa using hi
    rw [List.getD_eq_getElem _ 0 hlen, List.getElem_map]
    rw [hxdef, List.getD_eq_getElem v 0 hi]
    rfl
  rw [hdec]
  have h255 : ((2 : ℚ) ^ 8 - 1) = 255 := by norm_num
  rw [h255]
  exact quantize_pointwise_bound (embMin v) (embMax v) x h
    (embMin_le_mem v x hx) (mem_le_embMax v x hx)

/-- Witness for C6 at the vector `[0, 1/2, 1]`, component 1. -/
theorem C6_roundtrip_error_bound_witness :
    embMin [(0 : ℚ), 1/2, 1] < embMax [(0 : ℚ), 1/2, 1] ∧
    |(dequantize_embedding (quantize_embedding [(0 : ℚ), 1/2, 1]).1
        (quantize_embedding [(0 : ℚ), 1/2, 1]).2.1
        (quantize_embedding [(0 : ℚ), 1/2, 1]).2.2).getD 1 0 -
      [(0 : ℚ), 1/2, 1].getD 1 0| ≤
      (embMax [(0 : ℚ), 1/2, 1] - embMin [(0 : ℚ), 1/2, 1]) / 255 :=
  ⟨by norm_num [embMin, embMax],
   C6_roundtrip_error_bound [(0 : ℚ), 1/2, 1]
     (by norm_num [embMin, embMax]) 1 (by norm_num)⟩

/-- C5 (amended): once the best vector similarity strictly exceeds the
threshold and verification is enabled with truthy prompts and a cached
response, the verifier's outcome alone decides the result: a failed call (a
raise, or an unparsable reply) yields a miss, a parsed score is rejected
exactly when it falls strictly below the threshold (`utils.py` line 581; a
score equal to the threshold is accepted), and the vector similarity is
never consulted again. -/
theorem C5_verifier_score_replaces (θ : ℚ) (st : BestState) (op resp : String)
    (o : LLMOutcome)
    (hθ : θ < st.best_similarity) (hop : op ≠ "")
    (hbp : ∃ bp, st.best_prompt = some bp ∧ bp ≠ "")
    (hresp : st.best_response = some resp) :
    llm_verification_stage θ true (some o) (some op) st =
      (match o with
       | .failed => none
       | .score s => if s < θ then none else some resp) := by
  obtain ⟨bp, hbp1, hbp2⟩ := hbp
  unfold llm_verification_stage
  rw [if_pos hθ]
  have h1 : truthyStr (some op) = true := by
    simp [truthyStr, hop]
  have h2 : truthyStr st.best_prompt = true := by
    rw [hbp1]
    simp [truthyStr, hbp2]
  have h3 : st.best_response.isSome = true := by
    rw [hresp]
    rfl
  rw [h1, h2, h3]
  simp only [Bool.and_true, Bool.true_and, Option.isSome_some, if_true]
  cases o with
  | failed => rfl
  | score s =>
    simp only [hresp]

/-- Witness for C5 at a failed verifier call over a concrete best state. -/
theorem C5_verifier_score_replaces_witness :
    (95/100 : ℚ) < 96/100 ∧
    llm_verification_stage (95/100) true (some .failed) (some "p")
      { best_similarity := 96/100, best_response := some "resp",
        best_prompt := some "cached", best_cache_id := some "id" } = none :=
  ⟨by norm_num,
   C5_verifier_score_replaces (95/100)
     { best_similarity := 96/100, best_response := some "resp",
       best_prompt := some "cached", best_cache_id := some "id" }
     "p" "resp" .failed (by norm_num) (by decide)
     ⟨"cached", rfl, by decide⟩ rfl⟩

/-- C5 counterexample to the claim as stated: the vector similarity 96/100
exceeds the threshold 95/100, verification is enabled, and the verifier
parses to exactly 95/100 — a score that does not exceed the threshold, so
the claim demands a miss — yet `get_best_cached_response` returns the
cached payload, because the rejection test at `utils.py` line 581 uses
strict `<`. -/
theorem C5_threshold_equality_counterexample :
    get_best_cached_response (fun _ _ => 96/100) (some [("k", c5Entry)]) [1]
      (95/100) true (some (.score (95/100))) (some "prompt") (some "query")
      = .ok (some "resp") := by
  norm_num [get_best_cached_response, scan_mode_cache, ctSkips, shapeSize,
    dequantize_embedding, llm_verification_stage, truthyStr, c5Entry,
    List.isEmpty]

/-- C9 (amended): a malformed stored embedding is not skipped: the scan of
the mode bucket completes without error when every embedding-bearing entry
it reaches matches its stored shape, and aborts with the reshape error at
the first reachable malformed entry (`utils.py` lines 545-547 perform the
`reshape` with no enclosing try/except inside the loop). -/
theorem C9_malformed_embedding_aborts_scan (sim : List ℚ → List ℚ → ℚ)
    (q : List ℚ) (ct : Option String) :
    (∀ entries st, (∀ p ∈ entries, scanSkips ct p.2 ∨ WellShapedEntry p.2) →
       ∃ st2, scan_mode_cache sim q ct entries st = .ok st2) ∧
    (∀ pre cid bad rest st,
       (∀ p ∈ pre, scanSkips ct p.2 ∨ WellShapedEntry p.2) →
       ctSkips ct bad = false → MalformedEntry bad →
       scan_mode_cache sim q ct (pre ++ (cid, bad) :: rest) st =
         .error .reshape_mismatch) := by
  constructor
  · intro entries
    induction entries with
    | nil =>
      intro st _
      exact ⟨st, rfl⟩
    | cons hd tl ih =>
      intro st hall
      obtain ⟨cid, cd⟩ := hd
      have hhd := hall (cid, cd) (List.mem_cons_self _ _)
      have htl : ∀ p ∈ tl, scanSkips ct p.2 ∨ WellShapedEntry p.2 :=
        fun p hp => hall p (List.mem_cons_of_mem _ hp)
      by_cases hskip : ctSkips ct cd = true
      · rw [scan_mode_cache, if_pos hskip]
        exact ih st htl
      · rcases hhd with hsk | hws
        · rcases hsk with h | h
          · exact absurd h hskip
          · rw [scan_mode_cache, if_neg hskip, h]
            exact ih st htl
        · cases hemb : cd.embedding with
          | none =>
            rw [scan_mode_cache, if_neg hskip]
            simp only [hemb]
            exact ih st htl
          | some bytes =>
            have hws2 : WellShapedEntry cd := hws
            obtain ⟨shape, hs1, hs2⟩ := hws2 bytes hemb
            rw [scan_mode_cache, if_neg hskip]
            simp only [hemb, hs1]
            rw [if_neg (show ¬ shapeSize shape ≠ bytes.length from fun hne => hne hs2)]
            exact ih _ htl
  · intro pre
    induction pre with
    | nil =>
      intro cid bad rest st _ hct hm
      obtain ⟨bytes, hb1, hb2⟩ := hm
      rw [List.nil_append, scan_mode_cache,
        if_neg (show ¬ ctSkips ct bad = true by rw [hct]; exact Bool.false_ne_true)]
      cases hsh : bad.embedding_shape with
      | none => simp only [hb1, hsh]
      | some shape =>
        simp only [hb1, hsh]
        rw [if_pos (hb2 shape hsh)]
    | cons hd tl ih =>
      intro cid bad rest st hall hct hm
      obtain ⟨cid2, cd⟩ := hd
      have hhd := hall (cid2, cd) (List.mem_cons_self _ _)
      have htl : ∀ p ∈ tl, scanSkips ct p.2 ∨ WellShapedEntry p.2 :=
        fun p hp => hall p (List.mem_cons_of_mem _ hp)
      rw [List.cons_append]
      by_cases hskip : ctSkips ct cd = true
      · rw [scan_mode_cache, if_pos hskip]
        exact ih cid bad rest st htl hct hm
      · rcases hhd with hsk | hws
        · rcases hsk with h | h
          · exact absurd h hskip
          · rw [scan_mode_cache, if_neg hskip, h]
            exact ih cid bad rest st htl hct hm
        · cases hemb : cd.embedding with
          | none =>
            rw [scan_mode_cache, if_neg hskip]
            simp only [hemb]
            exact ih cid bad rest st htl hct hm
          | some bytes =>
            have hws2 : WellShapedEntry cd := hws
            obtain ⟨shape, hs1, hs2⟩ := hws2 bytes hemb
            rw [scan_mode_cache, if_neg hskip]
            simp only [hemb, hs1]
            rw [if_neg (show ¬ shapeSize shape ≠ bytes.length from fun hne => hne hs2)]
            exact ih cid bad rest _ htl hct hm

/-- Witness for C9 on a concrete bucket: the malformed entry at the front
aborts the scan that the well-formed entry behind it would have completed. -/
theorem C9_malformed_embedding_aborts_scan_witness :
    ctSkips (some "query") c9Bad = false ∧ MalformedEntry c9Bad ∧
    scan_mode_cache (fun _ _ => 1) [1] (some "query")
      [("k1", c9Bad), ("k2", c9Good)]
      { best_similarity := -1, best_response := none, best_prompt := none,
        best_cache_id := none } = .error .reshape_mismatch :=
  ⟨by decide,
   ⟨[0, 0], rfl, by
     intro shape hs
     cases Option.some_inj.mp hs
     decide⟩,
   (C9_malformed_embedding_aborts_scan (fun _ _ => 1) [1] (some "query")).2
     [] "k1" c9Bad [("k2", c9Good)] _ (by intro p hp; cases hp) (by decide)
     ⟨[0, 0], rfl, by
       intro shape hs
       cases Option.some_inj.mp hs
       decide⟩⟩

/-- C9 counterexample to the claim as stated: the lookup over a bucket whose
first entry is malformed aborts with the reshape error instead of skipping
the entry and hitting on the well-formed entry behind it. -/
theorem C9_lookup_aborts_counterexample :
    get_best_cached_response (fun _ _ => 1) (some [("k1", c9Bad), ("k2", c9Good)])
      [1] (1/2) false none none (some "query") = .error .reshape_mismatch := by
  norm_num [get_best_cached_response, scan_mode_cache, ctSkips, shapeSize,
    dequantize_embedding, c9Bad, c9Good, List.isEmpty]

theorem sortPair_AB : sortPair "A" "B" = ("A", "B") := by
  rw [sortPair, if_pos (String.le_iff_toList_le.mpr (by decide))]

theorem sortPair_BA : sortPair "B" "A" = ("A", "B") := by
  rw [sortPair, if_neg (by rw [String.le_iff_toList_le]; decide)]

theorem sortPair_BC : sortPair "B" "C" = ("B", "C") := by
  rw [sortPair, if_pos (String.le_iff_toList_le.mpr (by decide))]

theorem sortPair_CB : sortPair "C" "B" = ("B", "C") := by
  rw [sortPair, if_neg (by rw [String.le_iff_toList_le]; decide)]

theorem processRecord_at_max_depth (cid : String) (md : Nat)
    (vis : List String) (st : RecordsState) (r : NeighborRecord) :
    (processRecord cid md md vis st r).queue_tail = st.queue_tail ∧
    ∀ e ∈ (processRecord cid md md vis st r).edges,
      e ∈ st.edges ∨ e.target ∈ vis := by
  by_cases h1 : r.edge_id ∈ st.visited_edges
  · simp only [processRecord, if_pos h1]
    exact ⟨trivial, fun e he => Or.inl he⟩
  · cases ht : r.tid with
    | none =>
      simp only [processRecord, if_neg h1, ht]
      exact ⟨trivial, fun e he => Or.inl he⟩
    | some tid =>
      simp only [processRecord, if_neg h1, ht]
      rw [if_neg (by simp)]
      unfold edgeAppendStep
      by_cases h2 : sortPair cid tid ∈ st.visited_edge_pairs
      · rw [if_pos h2]
        exact ⟨rfl, fun e he => Or.inl he⟩
      · rw [if_neg h2]
        by_cases h3 : tid ∈ vis ∨ (tid ∉ vis ∧ md < md)
        · rw [if_pos h3]
          refine ⟨rfl, fun e he => ?_⟩
          rcases List.mem_append.mp he with h | h
          · exact Or.inl h
          · rcases h3 with h3 | h3
            · rw [List.eq_of_mem_singleton h]
              exact Or.inr h3
            · exact absurd h3.2 (lt_irrefl md)
        · rw [if_neg h3]
          exact ⟨rfl, fun e he => Or.inl he⟩

/-- C2 (amended): when the dequeued node sits at depth exactly `max_depth`,
the neighbor loop enqueues nothing, and an unseen neighbor edge is appended
only when the neighbor node is already in the result (`neo4j_impl.py`
lines 977-983): an unseen boundary edge to an unvisited beyond-depth
neighbor is dropped together with the neighbor, not appended. -/
theorem C2_max_depth_edge_needs_included_target (cid : String) (md : Nat)
    (vis : List String) (records : List NeighborRecord) (st : RecordsState) :
    (processRecords cid md md vis records st).queue_tail = st.queue_tail ∧
    ∀ e ∈ (processRecords cid md md vis records st).edges,
      e ∈ st.edges ∨ e.target ∈ vis := by
  induction records generalizing st with
  | nil => exact ⟨rfl, fun e he => Or.inl he⟩
  | cons r rs ih =>
    unfold processRecords at ih ⊢
    simp only [List.foldl_cons]
    obtain ⟨hq, he⟩ := processRecord_at_max_depth cid md vis st r
    obtain ⟨hq2, he2⟩ := ih (processRecord cid md md vis st r)
    refine ⟨by rw [hq2, hq], fun e hme => ?_⟩
    rcases he2 e hme with h | h
    · rcases he e h with h' | h'
      · exact Or.inl h'
      · exact Or.inr h'
    · exact Or.inr h

/-- C2 counterexample to the claim as stated: extracting from `A` in the
chain `A - B - C` with `max_depth = 1` dequeues `B` at depth 1 with the
unseen edge `e2` (unseen id, unseen pair) toward the beyond-depth neighbor
`C`; the claim says `e2` is appended, but the result's edges are exactly
`[e1]`. -/
theorem C2_boundary_edge_counterexample :
    (robust_fallback chainDB "A" 1 10).edges.map KnowledgeGraphEdge.id = ["e1"] ∧
    (robust_fallback chainDB "A" 1 10).nodes.map KnowledgeGraphNode.id = ["A", "B"] := by
  constructor <;>
    simp [robust_fallback, chainDB, bfsLoop, processRecords, processRecord,
      edgeAppendStep, targetNode, NeighborRecord.tid, sortPair_AB, sortPair_BA,
      sortPair_BC, sortPair_CB]

theorem edgeAppendStep_edges_inv (cid : String) (cd md : Nat)
    (vis : List String) (st : RecordsState) (r : NeighborRecord) (tid : String)
    (hfresh : r.edge_id ∉ st.visited_edges)
    (h1 : (st.edges.map KnowledgeGraphEdge.id).Nodup)
    (h2 : ∀ i ∈ st.edges.map KnowledgeGraphEdge.id, i ∈ st.visited_edges) :
    ((edgeAppendStep cid cd md vis st r tid).edges.map KnowledgeGraphEdge.id).Nodup ∧
    ∀ i ∈ (edgeAppendStep cid cd md vis st r tid).edges.map KnowledgeGraphEdge.id,
      i ∈ (edgeAppendStep cid cd md vis st r tid).visited_edges := by
  unfold edgeAppendStep
  by_cases hp : sortPair cid tid ∈ st.visited_edge_pairs
  · rw [if_pos hp]
    exact ⟨h1, h2⟩
  · rw [if_neg hp]
    by_cases hc : tid ∈ vis ∨ (tid ∉ vis ∧ cd < md)
    · rw [if_pos hc]
      constructor
      · simp only [List.map_append, List.map_cons, List.map_nil]
        rw [List.nodup_append]
        refine ⟨h1, List.nodup_singleton _, ?_⟩
        intro i hi hi2
        have : i = r.edge_id := by
          simpa using hi2
        subst this
        exact hfresh (h2 _ hi)
      · intro i hi
        simp only [List.map_append, List.map_cons, List.map_nil] at hi
        rcases List.mem_append.mp hi with h | h
        · exact List.mem_append.mpr (Or.inl (h2 _ h))
        · simp only [List.mem_singleton] at h
          subst h
          exact List.mem_append.mpr (Or.inr (by simp))
    · rw [if_neg hc]
      exact ⟨h1, h2⟩

theorem processRecord_edges_inv (cid : String) (cd md : Nat)
    (vis : List String) (st : RecordsState) (r : NeighborRecord)
    (h1 : (st.edges.map KnowledgeGraphEdge.id).Nodup)
    (h2 : ∀ i ∈ st.edges.map KnowledgeGraphEdge.id, i ∈ st.visited_edges) :
    ((processRecord cid cd md vis st r).edges.map KnowledgeGraphEdge.id).Nodup ∧
    ∀ i ∈ (processRecord cid cd md vis st r).edges.map KnowledgeGraphEdge.id,
      i ∈ (processRecord cid cd md vis st r).visited_edges := by
  by_cases hg : r.edge_id ∈ st.visited_edges
  · simp only [processRecord, if_pos hg]
    exact ⟨h1, h2⟩
  · cases ht : r.tid with
    | none =>
      simp only [processRecord, if_neg hg, ht]
      exact ⟨h1, h2⟩
    | some tid =>
      simp only [processRecord, if_neg hg, ht]
      by_cases hq : tid ∉ vis ∧ cd < md
      · rw [if_pos hq]
        exact edgeAppendStep_edges_inv cid cd md vis st r tid hg h1 h2
      · rw [if_neg hq]
        exact edgeAppendStep_edges_inv cid cd md vis st r tid hg h1 h2

theorem processRecords_edges_inv (cid : String) (cd md : Nat)
    (vis : List String) (records : List NeighborRecord) (st : RecordsState)
    (h1 : (st.edges.map KnowledgeGraphEdge.id).Nodup)
    (h2 : ∀ i ∈ st.edges.map KnowledgeGraphEdge.id, i ∈ st.visited_edges) :
    ((processRecords cid cd md vis records st).edges.map KnowledgeGraphEdge.id).Nodup ∧
    ∀ i ∈ (processRecords cid cd md vis records st).edges.map KnowledgeGraphEdge.id,
      i ∈ (processRecords cid cd md vis records st).visited_edges := by
  induction records generalizing st with
  | nil => exact ⟨h1, h2⟩
  | cons r rs ih =>
    unfold processRecords at ih ⊢
    simp only [List.foldl_cons]
    obtain ⟨ha, hb⟩ := processRecord_edges_inv cid cd md vis st r h1 h2
    exact ih (processRecord cid cd md vis st r) ha hb

/-- Shared shape invariant of the fallback BFS loop: node ids track the
visited list, edge ids are distinct and tracked by `visited_edges`, and the
truncation flag is set only at the exact node budget. -/
theorem bfsLoop_basic (db : GraphView) (md mn : Nat) :
    ∀ (q : List QueueEntry) (res : KnowledgeGraph) (vis ve : List String)
      (vep : List (String × String)),
      res.nodes.map KnowledgeGraphNode.id = vis →
      vis.Nodup →
      (res.edges.map KnowledgeGraphEdge.id).Nodup →
      (∀ i ∈ res.edges.map KnowledgeGraphEdge.id, i ∈ ve) →
      ((bfsLoop db md mn q res vis ve vep).nodes.map KnowledgeGraphNode.id).Nodup ∧
      ((bfsLoop db md mn q res vis ve vep).edges.map KnowledgeGraphEdge.id).Nodup ∧
      ((bfsLoop db md mn q res vis ve vep).is_truncated = true →
        res.is_truncated = true ∨ (bfsLoop db md mn q res vis ve vep).nodes.length = mn) := by
  intro q res vis ve vep
  induction q, res, vis, ve, vep using bfsLoop.induct db md mn with
  | case1 res vis ve vep =>
    intro hnv hvn hen hei
    rw [bfsLoop]
    exact ⟨hnv ▸ hvn, hen, fun ht => Or.inl ht⟩
  | case2 cur ce cd rest res vis ve vep hguard =>
    intro hnv hvn hen hei
    rw [bfsLoop, if_pos hguard]
    exact ⟨hnv ▸ hvn, hen, fun ht => Or.inl ht⟩
  | case3 cur ce cd rest res vis ve vep hguard hvis ih =>
    intro hnv hvn hen hei
    rw [bfsLoop, if_neg hguard, if_pos hvis]
    exact ih hnv hvn hen hei
  | case4 cur ce cd rest res vis ve vep hguard hvis hdep ih =>
    intro hnv hvn hen hei
    rw [bfsLoop, if_neg hguard, if_neg hvis, if_pos hdep]
    exact ih hnv hvn hen hei
  | case5 cur ce cd rest res vis ve vep hguard hvis hdep visited1 htr =>
    intro hnv hvn hen hei
    simp only [visited1] at htr
    have hnodes : ((res.nodes ++ [cur]).map KnowledgeGraphNode.id).Nodup := by
      simp only [List.map_append, List.map_cons, List.map_nil, hnv]
      rw [List.nodup_append]
      exact ⟨hvn, List.nodup_singleton _,
        fun i hi hi2 => hvis ((List.mem_singleton.mp hi2) ▸ hi)⟩
    have hlen : (res.nodes ++ [cur]).length = mn := by
      have hl : res.nodes.length = vis.length := by
        rw [← hnv, List.length_map]
      simp only [List.length_append, List.length_cons, List.length_nil, hl]
      simp only [List.length_append, List.length_cons, List.length_nil] at htr
      omega
    rw [bfsLoop, if_neg hguard, if_neg hvis, if_neg hdep]
    cases ce with
    | none =>
      dsimp only
      rw [if_pos htr]
      exact ⟨hnodes, hen, fun _ => Or.inr hlen⟩
    | some e =>
      by_cases he : e.id ∈ ve
      · dsimp only
        rw [if_pos he, if_pos htr]
        exact ⟨hnodes, hen, fun _ => Or.inr hlen⟩
      · dsimp only
        rw [if_neg he, if_pos htr]
        refine ⟨hnodes, ?_, fun _ => Or.inr hlen⟩
        simp only [List.map_append, List.map_cons, List.map_nil]
        rw [List.nodup_append]
        refine ⟨hen, List.nodup_singleton _, ?_⟩
        intro i hi hi2
        have hieq : i = e.id := by simpa using hi2
        subst hieq
        exact he (hei _ hi)
  | case6 cur ce cd rest res vis ve vep hguard hvis hdep result1 visited1 step2 htr records st ih =>
    intro hnv hvn hen hei
    simp only [result1, visited1, step2, records, st] at htr ih
    have hnodes1 : (res.nodes ++ [cur]).map KnowledgeGraphNode.id = vis ++ [cur.id] := by
      simp [hnv]
    have hvn1 : (vis ++ [cur.id]).Nodup := by
      rw [List.nodup_append]
      exact ⟨hvn, List.nodup_singleton _,
        fun i hi hi2 => hvis ((List.mem_singleton.mp hi2) ▸ hi)⟩
    rw [bfsLoop, if_neg hguard, if_neg hvis, if_neg hdep]
    cases ce with
    | none =>
      dsimp only at ih ⊢
      rw [if_neg htr]
      exact ih hnodes1 hvn1
        (processRecords_edges_inv cur.id cd md (vis ++ [cur.id])
          ((db.neighbors cur.id).take 1000)
          { edges := res.edges, visited_edges := ve,
            visited_edge_pairs := vep, queue_tail := [] } hen hei).1
        (processRecords_edges_inv cur.id cd md (vis ++ [cur.id])
          ((db.neighbors cur.id).take 1000)
          { edges := res.edges, visited_edges := ve,
            visited_edge_pairs := vep, queue_tail := [] } hen hei).2
    | some e =>
      by_cases he : e.id ∈ ve
      · dsimp only at ih ⊢
        rw [dif_pos he] at ih
        rw [if_pos he, if_neg htr]
        exact ih hnodes1 hvn1
          (processRecords_edges_inv cur.id cd md (vis ++ [cur.id])
            ((db.neighbors cur.id).take 1000)
            { edges := res.edges, visited_edges := ve,
              visited_edge_pairs := vep, queue_tail := [] } hen hei).1
          (processRecords_edges_inv cur.id cd md (vis ++ [cur.id])
            ((db.neighbors cur.id).take 1000)
            { edges := res.edges, visited_edges := ve,
              visited_edge_pairs := vep, queue_tail := [] } hen hei).2
      · dsimp only at ih ⊢
        rw [dif_neg he] at ih
        rw [if_neg he, if_neg htr]
        have hen1 : ((res.edges ++ [e]).map KnowledgeGraphEdge.id).Nodup := by
          simp only [List.map_append, List.map_cons, List.map_nil]
          rw [List.nodup_append]
          refine ⟨hen, List.nodup_singleton _, ?_⟩
          intro i hi hi2
          have hieq : i = e.id := by simpa using hi2
          subst hieq
          exact he (hei _ hi)
        have hei1 : ∀ i ∈ (res.edges ++ [e]).map KnowledgeGraphEdge.id,
            i ∈ ve ++ [e.id] := by
          intro i hi
          simp only [List.map_append, List.map_cons, List.map_nil] at hi
          rcases List.mem_append.mp hi with h | h
          · exact List.mem_append.mpr (Or.inl (hei _ h))
          · simp only [List.mem_singleton] at h
            subst h
            exact List.mem_append.mpr (Or.inr (by simp))
        exact ih hnodes1 hvn1
          (processRecords_edges_inv cur.id cd md (vis ++ [cur.id])
            ((db.neighbors cur.id).take 1000)
            { edges := res.edges ++ [e], visited_edges := ve ++ [e.id],
              visited_edge_pairs := vep, queue_tail := [] } hen1 hei1).1
          (processRecords_edges_inv cur.id cd md (vis ++ [cur.id])
            ((db.neighbors cur.id).take 1000)
            { edges := res.edges ++ [e], visited_edges := ve ++ [e.id],
              visited_edge_pairs := vep, queue_tail := [] } hen1 hei1).2

theorem neo4jCollectNodes_nodup :
    ∀ (rows : List NeoNodeRow) (acc : List KnowledgeGraphNode) (seen : List String),
      (acc.map KnowledgeGraphNode.id).Nodup →
      (∀ i ∈ acc.map KnowledgeGraphNode.id, i ∈ seen) →
      ((neo4jCollectNodes rows acc seen).1.map KnowledgeGraphNode.id).Nodup
  | [], acc, seen, h1, _ => h1
  | row :: rest, acc, seen, h1, h2 => by
    by_cases h : row.node_id ∈ seen
    · rw [neo4jCollectNodes, if_pos h]
      exact neo4jCollectNodes_nodup rest acc seen h1 h2
    · rw [neo4jCollectNodes, if_neg h]
      apply neo4jCollectNodes_nodup rest _ _
      · simp only [List.map_append, List.map_cons, List.map_nil]
        rw [List.nodup_append]
        exact ⟨h1, List.nodup_singleton _,
          fun i hi hi2 => h ((List.mem_singleton.mp hi2) ▸ (h2 i hi))⟩
      · intro i hi
        simp only [List.map_append, List.map_cons, List.map_nil] at hi
        rcases List.mem_append.mp hi with hl | hl
        · exact List.mem_append.mpr (Or.inl (h2 i hl))
        · exact List.mem_append.mpr (Or.inr hl)

theorem neo4jCollectEdges_nodup :
    ∀ (rows : List NeoRelRow) (acc : List KnowledgeGraphEdge) (seen : List String),
      (acc.map KnowledgeGraphEdge.id).Nodup →
      (∀ i ∈ acc.map KnowledgeGraphEdge.id, i ∈ seen) →
      ((neo4jCollectEdges rows acc seen).1.map KnowledgeGraphEdge.id).Nodup
  | [], acc, seen, h1, _ => h1
  | row :: rest, acc, seen, h1, h2 => by
    by_cases h : row.rel_id ∈ seen
    · rw [neo4jCollectEdges, if_pos h]
      exact neo4jCollectEdges_nodup rest acc seen h1 h2
    · rw [neo4jCollectEdges, if_neg h]
      apply neo4jCollectEdges_nodup rest _ _
      · simp only [List.map_append, List.map_cons, List.map_nil]
        rw [List.nodup_append]
        exact ⟨h1, List.nodup_singleton _,
          fun i hi hi2 => h ((List.mem_singleton.mp hi2) ▸ (h2 i hi))⟩
      · intro i hi
        simp only [List.map_append, List.map_cons, List.map_nil] at hi
        rcases List.mem_append.mp hi with hl | hl
        · exact List.mem_append.mpr (Or.inl (h2 i hl))
        · exact List.mem_append.mpr (Or.inr hl)

theorem dictInsertIfAbsent_keyed {α : Type} (f : α → String)
    (d : List (String × α)) (k : String) (v : α) (hv : f v = k)
    (h : DictKeyed f d) : DictKeyed f (dictInsertIfAbsent d k v) := by
  unfold dictInsertIfAbsent
  by_cases hf : ((d.find? (fun p => p.1 = k)).isSome : Prop)
  · rw [if_pos hf]
    exact h
  · rw [if_neg hf]
    obtain ⟨h1, h2⟩ := h
    constructor
    · simp only [List.map_append, List.map_cons, List.map_nil]
      rw [List.nodup_append]
      refine ⟨h1, List.nodup_singleton _, ?_⟩
      intro i hi hi2
      have hik : i = k := List.mem_singleton.mp hi2
      subst hik
      obtain ⟨p, hp, hpk⟩ := List.mem_map.mp hi
      apply hf
      rw [List.find?_isSome]
      exact ⟨p, hp, by simp [hpk]⟩
    · intro p hp
      rcases List.mem_append.mp hp with hl | hl
      · exact h2 p hl
      · rw [List.mem_singleton.mp hl]
        exact hv

theorem pgFoldNodes_keyed (xs : List PGNodeRow)
    (d : List (String × KnowledgeGraphNode))
    (h : DictKeyed KnowledgeGraphNode.id d) :
    DictKeyed KnowledgeGraphNode.id
      (xs.foldl (fun d node => dictInsertIfAbsent d node.id
        { id := node.id, labels := [node.entity_id], properties := node.props })
        d) := by
  induction xs generalizing d with
  | nil => exact h
  | cons x rest ih =>
    simp only [List.foldl_cons]
    exact ih _ (dictInsertIfAbsent_keyed _ _ _ _ rfl h)

theorem pgFoldEdges_keyed (xs : List PGEdgeRow)
    (d : List (String × KnowledgeGraphEdge))
    (h : DictKeyed KnowledgeGraphEdge.id d) :
    DictKeyed KnowledgeGraphEdge.id
      (xs.foldl (fun d edge => dictInsertIfAbsent d edge.id
        { id := edge.id, type := "DIRECTED", source := edge.start_id,
          target := edge.end_id, properties := edge.props })
        d) := by
  induction xs generalizing d with
  | nil => exact h
  | cons x rest ih =>
    simp only [List.foldl_cons]
    exact ih _ (dictInsertIfAbsent_keyed _ _ _ _ rfl h)

theorem pgCollect_keyed (rows : List PGRow) :
    DictKeyed KnowledgeGraphNode.id (pgCollect rows).1 ∧
    DictKeyed KnowledgeGraphEdge.id (pgCollect rows).2 := by
  unfold pgCollect
  suffices hgen : ∀ (d : List (String × KnowledgeGraphNode) ×
      List (String × KnowledgeGraphEdge)),
      DictKeyed KnowledgeGraphNode.id d.1 → DictKeyed KnowledgeGraphEdge.id d.2 →
      DictKeyed KnowledgeGraphNode.id
        (rows.foldl (fun acc row =>
          (row.n.foldl (fun d node => dictInsertIfAbsent d node.id
            { id := node.id, labels := [node.entity_id], properties := node.props }) acc.1,
           row.r.foldl (fun d edge => dictInsertIfAbsent d edge.id
            { id := edge.id, type := "DIRECTED", source := edge.start_id,
              target := edge.end_id, properties := edge.props }) acc.2)) d).1 ∧
      DictKeyed KnowledgeGraphEdge.id
        (rows.foldl (fun acc row =>
          (row.n.foldl (fun d node => dictInsertIfAbsent d node.id
            { id := node.id, labels := [node.entity_id], properties := node.props }) acc.1,
           row.r.foldl (fun d edge => dictInsertIfAbsent d edge.id
            { id := edge.id, type := "DIRECTED", source := edge.start_id,
              target := edge.end_id, properties := edge.props }) acc.2)) d).2 by
    exact hgen ([], []) ⟨List.nodup_nil, by intro p hp; cases hp⟩
      ⟨List.nodup_nil, by intro p hp; cases hp⟩
  induction rows with
  | nil => intro d h1 h2; exact ⟨h1, h2⟩
  | cons row rest ih =>
    intro d h1 h2
    simp only [List.foldl_cons]
    exact ih _ (pgFoldNodes_keyed row.n d.1 h1) (pgFoldEdges_keyed row.r d.2 h2)

theorem dictKeyed_values_nodup {α : Type} (f : α → String)
    (d : List (String × α)) (h : DictKeyed f d) :
    ((d.map Prod.snd).map f).Nodup := by
  obtain ⟨h1, h2⟩ := h
  have : (d.map Prod.snd).map f = d.map Prod.fst := by
    rw [List.map_map]
    exact List.map_congr_left (fun p hp => h2 p hp)
  rw [this]
  exact h1

/-- C3: every `KnowledgeGraph` any of the backends assembles — the fallback
BFS (`neo4j_impl.py` lines 856-1011, guarded by `visited_nodes` and
`visited_edges`), the APOC record processing shared by the wildcard and the
labeled Neo4j branches (lines 806-836, guarded by `seen_nodes` and
`seen_edges`), and the PostgreSQL row processing for both branches
(`postgres_impl.py` lines 1547-1602, keyed dicts) — contains no two nodes
with the same id and no two edges with the same id. -/
theorem C3_no_duplicate_ids :
    (∀ (db : GraphView) (label : String) (md mn : Nat),
      ((robust_fallback db label md mn).nodes.map KnowledgeGraphNode.id).Nodup ∧
      ((robust_fallback db label md mn).edges.map KnowledgeGraphEdge.id).Nodup) ∧
    (∀ (node_info : List NeoNodeRow) (rels : List NeoRelRow) (tr : Bool),
      ((neo4j_get_knowledge_graph node_info rels tr).nodes.map
        KnowledgeGraphNode.id).Nodup ∧
      ((neo4j_get_knowledge_graph node_info rels tr).edges.map
        KnowledgeGraphEdge.id).Nodup) ∧
    (∀ (rows : List PGRow) (tn mn : Nat),
      ((pg_get_knowledge_graph rows tn mn).nodes.map KnowledgeGraphNode.id).Nodup ∧
      ((pg_get_knowledge_graph rows tn mn).edges.map KnowledgeGraphEdge.id).Nodup) := by
  refine ⟨?_, ?_, ?_⟩
  · intro db label md mn
    unfold robust_fallback
    cases db.getNode label with
    | none => exact ⟨List.nodup_nil, List.nodup_nil⟩
    | some props =>
      obtain ⟨ha, hb, _⟩ := bfsLoop_basic db md mn
        [({ id := label, labels := [label], properties := props }, none, 0)]
        {} [] [] [] rfl List.nodup_nil List.nodup_nil
        (by intro i hi; cases hi)
      exact ⟨ha, hb⟩
  · intro node_info rels tr
    constructor
    · exact neo4jCollectNodes_nodup node_info [] [] List.nodup_nil
        (by intro i hi; cases hi)
    · exact neo4jCollectEdges_nodup rels [] [] List.nodup_nil
        (by intro i hi; cases hi)
  · intro rows tn mn
    obtain ⟨h1, h2⟩ := pgCollect_keyed rows
    exact ⟨dictKeyed_values_nodup _ _ h1, dictKeyed_values_nodup _ _ h2⟩

theorem bfsLoop_cap (db : GraphView) (md mn : Nat) :
    ∀ (q : List QueueEntry) (res : KnowledgeGraph) (vis ve : List String)
      (vep : List (String × String)),
      bfsLoop db md mn q res vis ve vep =
      bfsLoop (capNeighbors db) md mn q res vis ve vep := by
  intro q res vis ve vep
  induction q, res, vis, ve, vep using bfsLoop.induct db md mn with
  | case1 res vis ve vep =>
    rw [bfsLoop, bfsLoop]
  | case2 cur ce cd rest res vis ve vep hguard =>
    rw [bfsLoop, bfsLoop, if_pos hguard, if_pos hguard]
  | case3 cur ce cd rest res vis ve vep hguard hvis ih =>
    rw [bfsLoop, bfsLoop, if_neg hguard, if_neg hguard, if_pos hvis, if_pos hvis]
    exact ih
  | case4 cur ce cd rest res vis ve vep hguard hvis hdep ih =>
    rw [bfsLoop, bfsLoop, if_neg hguard, if_neg hguard, if_neg hvis, if_neg hvis,
      if_pos hdep, if_pos hdep]
    exact ih
  | case5 cur ce cd rest res vis ve vep hguard hvis hdep visited1 htr =>
    simp only [visited1] at htr
    rw [bfsLoop, bfsLoop, if_neg hguard, if_neg hguard, if_neg hvis, if_neg hvis,
      if_neg hdep, if_neg hdep]
    dsimp only
    rw [if_pos htr, if_pos htr]
  | case6 cur ce cd rest res vis ve vep hguard hvis hdep result1 visited1 step2 htr records st ih =>
    simp only [result1, visited1, step2, records, st] at htr ih
    rw [bfsLoop, bfsLoop, if_neg hguard, if_neg hguard, if_neg hvis, if_neg hvis,
      if_neg hdep, if_neg hdep]
    dsimp only [capNeighbors]
    rw [List.take_take]
    simp only [Nat.min_self]
    rw [if_neg htr, if_neg htr]
    exact ih

/-- C10: the fallback BFS sees only the first 1000 neighbor records of each
dequeued node (`results.fetch(1000)`, `neo4j_impl.py` line 942): its result
on any graph equals its result on the graph whose listings are cut to 1000
records, so relationships beyond the cap — and nodes reachable only through
them — never appear; and the omission never sets `is_truncated`: the flag is
set only on the exact node-budget stop, where the result holds exactly
`max_nodes` nodes. -/
theorem C10_neighbor_fetch_cap :
    (∀ (db : GraphView) (label : String) (md mn : Nat),
      robust_fallback db label md mn = robust_fallback (capNeighbors db) label md mn) ∧
    (∀ (db : GraphView) (label : String) (md mn : Nat),
      (robust_fallback db label md mn).is_truncated = true →
      (robust_fallback db label md mn).nodes.length = mn) := by
  constructor
  · intro db label md mn
    unfold robust_fallback
    simp only [capNeighbors]
    cases db.getNode label with
    | none => rfl
    | some props => exact bfsLoop_cap db md mn _ _ _ _ _
  · intro db label md mn htr
    unfold robust_fallback at htr ⊢
    revert htr
    cases hget : db.getNode label with
    | none =>
      intro htr
      dsimp only at htr
      exact absurd htr (by simp)
    | some props =>
      intro htr
      dsimp only at htr ⊢
      obtain ⟨_, _, h3⟩ := bfsLoop_basic db md mn
        [({ id := label, labels := [label], properties := props }, none, 0)]
        {} [] [] [] rfl List.nodup_nil List.nodup_nil
        (by intro i hi; cases hi)
      rcases h3 htr with h | h
      · cases h
      · exact h

/-- Witness for C10's truncation conjunct: extracting from the chain with
`max_nodes = 1` truncates and returns exactly one node. -/
theorem C10_neighbor_fetch_cap_witness :
    (robust_fallback chainDB "A" 1 1).is_truncated = true ∧
    (robust_fallback chainDB "A" 1 1).nodes.length = 1 :=
  ⟨by simp [robust_fallback, chainDB, bfsLoop],
   C10_neighbor_fetch_cap.2 chainDB "A" 1 1
     (by simp [robust_fallback, chainDB, bfsLoop])⟩

theorem reach_self (db : GraphView) (s : String) : ∀ k, s ∈ reachAtMost db s k
  | 0 => by simp [reachAtMost]
  | k + 1 => by
    rw [reachAtMost]
    exact Finset.mem_union_left _ (reach_self db s k)

theorem reach_succ_subset (db : GraphView) (s : String) (k : Nat) :
    reachAtMost db s k ⊆ reachAtMost db s (k + 1) := by
  rw [reachAtMost]
  exact Finset.subset_union_left

theorem reach_le_subset (db : GraphView) (s : String) :
    ∀ {k m : Nat}, k ≤ m → reachAtMost db s k ⊆ reachAtMost db s m := by
  intro k m h
  induction m with
  | zero =>
    have : k = 0 := Nat.le_zero.mp h
    subst this
    exact Finset.Subset.refl _
  | succ m ih =>
    rcases Nat.lt_or_ge k (m + 1) with hlt | hge
    · exact (ih (Nat.lt_succ_iff.mp hlt)).trans (reach_succ_subset db s m)
    · have : k = m + 1 := Nat.le_antisymm h hge
      subst this
      exact Finset.Subset.refl _

theorem reach_step (db : GraphView) (s : String) {k : Nat} {x t : String}
    (hx : x ∈ reachAtMost db s k) (ht : t ∈ nbrIds db x) :
    t ∈ reachAtMost db s (k + 1) := by
  rw [reachAtMost]
  apply Finset.mem_union_right
  rw [Finset.mem_biUnion]
  exact ⟨x, hx, List.mem_toFinset.mpr ht⟩

theorem nodupKeys_depth_eq {pd : List (String × Nat)}
    (h : (pd.map Prod.fst).Nodup) {x : String} {d1 d2 : Nat}
    (h1 : (x, d1) ∈ pd) (h2 : (x, d2) ∈ pd) : d1 = d2 := by
  induction pd with
  | nil => cases h1
  | cons p rest ih =>
    simp only [List.map_cons, List.nodup_cons] at h
    rcases List.mem_cons.mp h1 with he1 | he1 <;>
      rcases List.mem_cons.mp h2 with he2 | he2
    · rw [← he1] at he2
      exact (congrArg Prod.snd he2).symm
    · exfalso
      apply h.1
      rw [← he1]
      exact List.mem_map.mpr ⟨(x, d2), he2, rfl⟩
    · exfalso
      apply h.1
      rw [← he2]
      exact List.mem_map.mpr ⟨(x, d1), he1, rfl⟩
    · exact ih h.2 he1 he2

theorem keys_mem_iff {pd : List (String × Nat)} {x : String} :
    x ∈ pd.map Prod.fst ↔ ∃ d, (x, d) ∈ pd := by
  constructor
  · intro h
    obtain ⟨p, hp, hpx⟩ := List.mem_map.mp h
    exact ⟨p.2, by rw [← hpx]; exact hp⟩
  · intro ⟨d, hd⟩
    exact List.mem_map.mpr ⟨(x, d), hd, rfl⟩

theorem CovQ_mono_queue {pd : List (String × Nat)} {q1 q2 : List QueueEntry}
    {d : Nat} {t : String} (hq : ∀ e ∈ q1, e ∈ q2) (h : CovQ pd q1 d t) :
    CovQ pd q2 d t := by
  rcases h with h | ⟨e, he, h1, h2⟩
  · exact Or.inl h
  · exact Or.inr ⟨e, hq e he, h1, h2⟩

theorem VEWitness_mono_queue {db : GraphView} {pd : List (String × Nat)}
    {q1 q2 : List QueueEntry} {eid : String} (hq : ∀ e ∈ q1, e ∈ q2)
    (h : VEWitness db pd q1 eid) : VEWitness db pd q2 eid := by
  obtain ⟨y, dy, z, hy, hr, hc⟩ := h
  exact ⟨y, dy, z, hy, hr, CovQ_mono_queue hq hc⟩

theorem edgeAppendStep_queue_tail (cid : String) (cd md : Nat)
    (vis : List String) (st : RecordsState) (r : NeighborRecord) (tid : String) :
    (edgeAppendStep cid cd md vis st r tid).queue_tail = st.queue_tail := by
  unfold edgeAppendStep
  split_ifs <;> rfl

theorem edgeAppendStep_ve_cases (cid : String) (cd md : Nat)
    (vis : List String) (st : RecordsState) (r : NeighborRecord) (tid : String) :
    (edgeAppendStep cid cd md vis st r tid).visited_edges = st.visited_edges ∨
    ((tid ∈ vis ∨ (tid ∉ vis ∧ cd < md)) ∧
     (edgeAppendStep cid cd md vis st r tid).visited_edges =
       st.visited_edges ++ [r.edge_id]) := by
  unfold edgeAppendStep
  split_ifs with h1 h2
  · exact Or.inl rfl
  · exact Or.inr ⟨h2, rfl⟩
  · exact Or.inl rfl

theorem processRecord_C1_step (db : GraphView) (md : Nat) (x : String)
    (dx : Nat) (pd1 : List (String × Nat)) (vis1 : List String)
    (rest : List QueueEntry)
    (hkeys : vis1 = pd1.map Prod.fst)
    (hnodup : (pd1.map Prod.fst).Nodup)
    (hx : (x, dx) ∈ pd1)
    (hpdle : ∀ p ∈ pd1, p.2 ≤ dx)
    (hcoh : EdgeCoherent db)
    (r : NeighborRecord) (hr : r ∈ db.neighbors x) (st : RecordsState)
    (hI1 : ∀ e ∈ st.queue_tail, e.2.1 = none ∧ qDepth e = dx + 1 ∧ dx < md ∧
      ∃ r2 ∈ db.neighbors x, r2.tid = some (qId e))
    (hI2 : ∀ eid ∈ st.visited_edges,
      VEWitness db pd1 (rest ++ st.queue_tail) eid) :
    (∀ e ∈ (processRecord x dx md vis1 st r).queue_tail,
      e.2.1 = none ∧ qDepth e = dx + 1 ∧ dx < md ∧
      ∃ r2 ∈ db.neighbors x, r2.tid = some (qId e)) ∧
    (∀ eid ∈ (processRecord x dx md vis1 st r).visited_edges,
      VEWitness db pd1 (rest ++ (processRecord x dx md vis1 st r).queue_tail) eid) ∧
    (∀ e ∈ st.queue_tail, e ∈ (processRecord x dx md vis1 st r).queue_tail) ∧
    (dx < md → ∀ t, r.tid = some t →
      CovQ pd1 (rest ++ (processRecord x dx md vis1 st r).queue_tail) dx t) := by
  by_cases hg : r.edge_id ∈ st.visited_edges
  · simp only [processRecord, if_pos hg]
    refine ⟨hI1, hI2, fun e he => he, ?_⟩
    intro _ t ht
    obtain ⟨y, dy, z, hy, ⟨r2, hr2, hr2id, hr2t⟩, hcov⟩ := hI2 _ hg
    rcases hcoh x y r r2 hr hr2 hr2id.symm t z ht hr2t with ⟨hxy, htz⟩ | ⟨_, hyt⟩
    · subst hxy
      subst htz
      have hdyx : dy = dx := nodupKeys_depth_eq hnodup hy hx
      rw [← hdyx]
      exact hcov
    · subst hyt
      exact Or.inl ⟨dy, Nat.le_succ_of_le (hpdle _ hy), hy⟩
  · cases ht : r.tid with
    | none =>
      simp only [processRecord, if_neg hg, ht]
      exact ⟨hI1, hI2, fun e he => he, fun _ t h => nomatch h⟩
    | some tid =>
      simp only [processRecord, if_neg hg, ht]
      by_cases henq : tid ∉ vis1 ∧ dx < md
      · rw [if_pos henq]
        have hqt : (edgeAppendStep x dx md vis1 st r tid).queue_tail
            = st.queue_tail := edgeAppendStep_queue_tail x dx md vis1 st r tid
        refine ⟨?_, ?_, ?_, ?_⟩
        · intro e he
          simp only [hqt] at he
          rcases List.mem_append.mp he with h | h
          · exact hI1 e h
          · rw [List.mem_singleton.mp h]
            exact ⟨rfl, rfl, henq.2, r, hr, ht⟩
        · intro eid hei
          have hmono : ∀ e ∈ rest ++ st.queue_tail,
              e ∈ rest ++ (st.queue_tail ++
                [(targetNode r tid, none, dx + 1)]) := by
            intro e he
            rcases List.mem_append.mp he with h | h
            · exact List.mem_append.mpr (Or.inl h)
            · exact List.mem_append.mpr (Or.inr (List.mem_append.mpr (Or.inl h)))
          rcases edgeAppendStep_ve_cases x dx md vis1 st r tid with hcase | ⟨_, hveq⟩
          · rw [hcase] at hei
            exact VEWitness_mono_queue (by simpa [hqt] using hmono) (hI2 _ hei)
          · rw [hveq] at hei
            rcases List.mem_append.mp hei with h | h
            · exact VEWitness_mono_queue (by simpa [hqt] using hmono) (hI2 _ h)
            · rw [List.mem_singleton.mp h]
              refine ⟨x, dx, tid, hx, ⟨r, hr, rfl, ht⟩, Or.inr ?_⟩
              refine ⟨(targetNode r tid, none, dx + 1), ?_, rfl, Nat.le_refl _⟩
              simp [hqt]
        · intro e he
          simp only [hqt]
          exact List.mem_append.mpr (Or.inl he)
        · intro _ t hsome
          have htid : t = tid := (Option.some_inj.mp hsome).symm
          subst htid
          refine Or.inr ⟨(targetNode r t, none, dx + 1), ?_, rfl, Nat.le_refl _⟩
          simp [hqt]
      · rw [if_neg henq]
        have hqt : (edgeAppendStep x dx md vis1 st r tid).queue_tail
            = st.queue_tail := edgeAppendStep_queue_tail x dx md vis1 st r tid
        refine ⟨?_, ?_, ?_, ?_⟩
        · intro e he
          rw [hqt] at he
          exact hI1 e he
        · intro eid hei
          rcases edgeAppendStep_ve_cases x dx md vis1 st r tid with hcase | ⟨hcond, hveq⟩
          · rw [hcase] at hei
            exact VEWitness_mono_queue (by rw [hqt]; exact fun e he => he) (hI2 _ hei)
          · rw [hveq] at hei
            rcases List.mem_append.mp hei with h | h
            · exact VEWitness_mono_queue (by rw [hqt]; exact fun e he => he) (hI2 _ h)
            · rw [List.mem_singleton.mp h]
              have htv : tid ∈ vis1 := by
                rcases hcond with hc | hc
                · exact hc
                · exact absurd hc henq
              obtain ⟨d, hd⟩ := keys_mem_iff.mp (hkeys ▸ htv)
              exact ⟨x, dx, tid, hx, ⟨r, hr, rfl, ht⟩,
                Or.inl ⟨d, Nat.le_succ_of_le (hpdle _ hd), hd⟩⟩
        · intro e he
          rw [hqt]
          exact he
        · intro hdx t hsome
          have htid : t = tid := (Option.some_inj.mp hsome).symm
          subst htid
          have htv : t ∈ vis1 := by
            by_contra habs
            exact henq ⟨habs, hdx⟩
          obtain ⟨d, hd⟩ := keys_mem_iff.mp (hkeys ▸ htv)
          exact Or.inl ⟨d, Nat.le_succ_of_le (hpdle _ hd), hd⟩

theorem processRecords_C1 (db : GraphView) (md : Nat) (x : String)
    (dx : Nat) (pd1 : List (String × Nat)) (vis1 : List String)
    (rest : List QueueEntry)
    (hkeys : vis1 = pd1.map Prod.fst)
    (hnodup : (pd1.map Prod.fst).Nodup)
    (hx : (x, dx) ∈ pd1)
    (hpdle : ∀ p ∈ pd1, p.2 ≤ dx)
    (hcoh : EdgeCoherent db) :
    ∀ (records : List NeighborRecord), (∀ r ∈ records, r ∈ db.neighbors x) →
    ∀ (st : RecordsState),
      (∀ e ∈ st.queue_tail, e.2.1 = none ∧ qDepth e = dx + 1 ∧ dx < md ∧
        ∃ r2 ∈ db.neighbors x, r2.tid = some (qId e)) →
      (∀ eid ∈ st.visited_edges,
        VEWitness db pd1 (rest ++ st.queue_tail) eid) →
      (∀ e ∈ (processRecords x dx md vis1 records st).queue_tail,
        e.2.1 = none ∧ qDepth e = dx + 1 ∧ dx < md ∧
        ∃ r2 ∈ db.neighbors x, r2.tid = some (qId e)) ∧
      (∀ eid ∈ (processRecords x dx md vis1 records st).visited_edges,
        VEWitness db pd1
          (rest ++ (processRecords x dx md vis1 records st).queue_tail) eid) ∧
      (∀ e ∈ st.queue_tail,
        e ∈ (processRecords x dx md vis1 records st).queue_tail) ∧
      (dx < md → ∀ r ∈ records, ∀ t, r.tid = some t →
        CovQ pd1 (rest ++ (processRecords x dx md vis1 records st).queue_tail)
          dx t) := by
  intro records
  induction records with
  | nil =>
    intro _ st h1 h2
    exact ⟨h1, h2, fun e he => he, fun _ r hr => nomatch hr⟩
  | cons r rs ih =>
    intro hrs st h1 h2
    have hrmem : r ∈ db.neighbors x := hrs r (List.mem_cons_self _ _)
    have hrsmem : ∀ r2 ∈ rs, r2 ∈ db.neighbors x :=
      fun r2 h => hrs r2 (List.mem_cons_of_mem _ h)
    obtain ⟨s1, s2, s3, s4⟩ := processRecord_C1_step db md x dx pd1 vis1 rest
      hkeys hnodup hx hpdle hcoh r hrmem st h1 h2
    unfold processRecords at ih ⊢
    simp only [List.foldl_cons]
    obtain ⟨f1, f2, f3, f4⟩ := ih hrsmem (processRecord x dx md vis1 st r) s1 s2
    refine ⟨f1, f2, ?_, ?_⟩
    · intro e he
      exact f3 e (s3 e he)
    · intro hdx r2 hr2 t ht
      rcases List.mem_cons.mp hr2 with hcase | hcase
      · subst hcase
        have := s4 hdx t ht
        apply CovQ_mono_queue ?_ this
        intro e he
        rcases List.mem_append.mp he with h | h
        · exact List.mem_append.mpr (Or.inl h)
        · exact List.mem_append.mpr (Or.inr (f3 e h))
      · exact f4 hdx r2 hcase t ht

theorem CovQ_mono_pd {pd pd2 : List (String × Nat)} {q : List QueueEntry}
    {d : Nat} {t : String} (hpd : ∀ p ∈ pd, p ∈ pd2) (h : CovQ pd q d t) :
    CovQ pd2 q d t := by
  rcases h with ⟨dt, h1, h2⟩ | h
  · exact Or.inl ⟨dt, h1, hpd _ h2⟩
  · exact Or.inr h

theorem VEWitness_mono_pd {db : GraphView} {pd pd2 : List (String × Nat)}
    {q : List QueueEntry} {eid : String} (hpd : ∀ p ∈ pd, p ∈ pd2)
    (h : VEWitness db pd q eid) : VEWitness db pd2 q eid := by
  obtain ⟨y, dy, z, hy, hr, hc⟩ := h
  exact ⟨y, dy, z, hpd _ hy, hr, CovQ_mono_pd hpd hc⟩

theorem CovQ_skip_front {pd : List (String × Nat)} {front : QueueEntry}
    {rest : List QueueEntry} {d0 : Nat} {t : String}
    (hfront : ∃ d, d ≤ qDepth front ∧ (qId front, d) ∈ pd)
    (h : CovQ pd (front :: rest) d0 t) : CovQ pd rest d0 t := by
  rcases h with h | ⟨e, he, h1, h2⟩
  · exact Or.inl h
  · rcases List.mem_cons.mp he with hef | hef
    · subst hef
      obtain ⟨d, hd1, hd2⟩ := hfront
      exact Or.inl ⟨d, le_trans hd1 h2, h1 ▸ hd2⟩
    · exact Or.inr ⟨e, hef, h1, h2⟩

theorem VEWitness_skip_front {db : GraphView} {pd : List (String × Nat)}
    {front : QueueEntry} {rest : List QueueEntry} {eid : String}
    (hfront : ∃ d, d ≤ qDepth front ∧ (qId front, d) ∈ pd)
    (h : VEWitness db pd (front :: rest) eid) : VEWitness db pd rest eid := by
  obtain ⟨y, dy, z, hy, hr, hc⟩ := h
  exact ⟨y, dy, z, hy, hr, CovQ_skip_front hfront hc⟩

theorem pairwise_le_of_all {l : List Nat} {c : Nat} (h : ∀ a ∈ l, a = c) :
    l.Pairwise (· ≤ ·) := by
  induction l with
  | nil => exact List.Pairwise.nil
  | cons a rest ih =>
    rw [List.pairwise_cons]
    refine ⟨?_, ih (fun b hb => h b (List.mem_cons_of_mem _ hb))⟩
    intro b hb
    rw [h a (List.mem_cons_self _ _), h b (List.mem_cons_of_mem _ hb)]

theorem nodup_length_le_card (l : List String) (F : Finset String)
    (hn : l.Nodup) (hsub : ∀ x ∈ l, x ∈ F) : l.length ≤ F.card := by
  have h1 : l.toFinset.card = l.length := List.toFinset_card_of_nodup hn
  have h2 : l.toFinset ⊆ F := fun x hx => hsub x (List.mem_toFinset.mp hx)
  rw [← h1]
  exact Finset.card_le_card h2

/-- Master invariant lemma for the fallback BFS: under the queue/processed
invariants, an untruncated run visits exactly what is reachable from the
queue, never trips the node budget, and closes the processed set under
neighbor expansion below `max_depth`. -/
theorem bfsLoop_reach (db : GraphView) (s : String) (md mn : Nat)
    (hdeg : ∀ n, (db.neighbors n).length ≤ 1000)
    (hcoh : EdgeCoherent db)
    (hcard : (reachAtMost db s md).card < mn) :
    ∀ (q : List QueueEntry) (res : KnowledgeGraph) (vis ve : List String)
      (vep : List (String × String)),
    ∀ (pd : List (String × Nat)),
      vis = pd.map Prod.fst →
      (pd.map Prod.fst).Nodup →
      res.nodes.map KnowledgeGraphNode.id = vis →
      res.is_truncated = false →
      (∀ p ∈ pd, p.2 ≤ md ∧ p.1 ∈ reachAtMost db s p.2) →
      (∀ e ∈ q, qDepth e ≤ md ∧ qId e ∈ reachAtMost db s (qDepth e)) →
      (q.map qDepth).Pairwise (· ≤ ·) →
      (∀ e1 ∈ q, ∀ e2 ∈ q, qDepth e1 ≤ qDepth e2 + 1) →
      (∀ p ∈ pd, ∀ e ∈ q, p.2 ≤ qDepth e) →
      (∀ p ∈ pd, p.2 < md → ∀ t ∈ nbrIds db p.1, CovQ pd q p.2 t) →
      (∀ eid ∈ ve, VEWitness db pd q eid) →
      (∀ e ∈ q, e.2.1 = none) →
      ∃ pdF : List (String × Nat),
        (∀ p ∈ pd, p ∈ pdF) ∧
        (bfsLoop db md mn q res vis ve vep).nodes.map KnowledgeGraphNode.id
          = pdF.map Prod.fst ∧
        (pdF.map Prod.fst).Nodup ∧
        (∀ p ∈ pdF, p.2 ≤ md ∧ p.1 ∈ reachAtMost db s p.2) ∧
        (∀ p ∈ pdF, p.2 < md → ∀ t ∈ nbrIds db p.1,
          ∃ dt, dt ≤ p.2 + 1 ∧ (t, dt) ∈ pdF) ∧
        (∀ e ∈ q, ∃ d, d ≤ qDepth e ∧ (qId e, d) ∈ pdF) ∧
        (bfsLoop db md mn q res vis ve vep).is_truncated = false := by
  intro q res vis ve vep
  induction q, res, vis, ve, vep using bfsLoop.induct db md mn with
  | case1 res vis ve vep =>
    intro pd h1 h2 h3 h4 h5 h6 h7 h8 h9 h10 h11 h12
    rw [bfsLoop]
    refine ⟨pd, fun p hp => hp, h3.trans h1, h2, h5, ?_, ?_, h4⟩
    · intro p hp hlt t ht
      rcases h10 p hp hlt t ht with hcov | ⟨e, he, _, _⟩
      · exact hcov
      · exact absurd he (List.not_mem_nil e)
    · intro e he
      exact absurd he (List.not_mem_nil e)
  | case2 cur ce cd rest res vis ve vep hguard =>
    intro pd h1 h2 h3 h4 h5 h6 h7 h8 h9 h10 h11 h12
    exfalso
    apply hguard
    apply Nat.lt_of_le_of_lt ?_ hcard
    apply nodup_length_le_card vis _ (h1 ▸ h2)
    intro x hx
    rw [h1] at hx
    obtain ⟨d, hd⟩ := keys_mem_iff.mp hx
    exact reach_le_subset db s (h5 _ hd).1 (h5 _ hd).2
  | case3 cur ce cd rest res vis ve vep hguard hvis ih =>
    intro pd h1 h2 h3 h4 h5 h6 h7 h8 h9 h10 h11 h12
    have hfront : ∃ d, d ≤ qDepth (cur, ce, cd) ∧
        (qId (cur, ce, cd), d) ∈ pd := by
      rw [h1] at hvis
      obtain ⟨d, hd⟩ := keys_mem_iff.mp hvis
      exact ⟨d, h9 _ hd _ (List.mem_cons_self _ _), hd⟩
    rw [bfsLoop, if_neg hguard, if_pos hvis]
    obtain ⟨pdF, hsub, hnodes, hnodup, hsound, hcomp, hdisc, htrf⟩ :=
      ih pd h1 h2 h3 h4 h5
        (fun e he => h6 e (List.mem_cons_of_mem _ he))
        ((List.pairwise_cons.mp h7).2)
        (fun e1 he1 e2 he2 => h8 e1 (List.mem_cons_of_mem _ he1) e2
          (List.mem_cons_of_mem _ he2))
        (fun p hp e he => h9 p hp e (List.mem_cons_of_mem _ he))
        (fun p hp hlt t ht => CovQ_skip_front hfront (h10 p hp hlt t ht))
        (fun eid hei => VEWitness_skip_front hfront (h11 eid hei))
        (fun e he => h12 e (List.mem_cons_of_mem _ he))
    refine ⟨pdF, hsub, hnodes, hnodup, hsound, hcomp, ?_, htrf⟩
    intro e he
    rcases List.mem_cons.mp he with hef | hef
    · subst hef
      obtain ⟨d, hd1, hd2⟩ := hfront
      exact ⟨d, hd1, hsub _ hd2⟩
    · exact hdisc e hef
  | case4 cur ce cd rest res vis ve vep hguard hvis hdep ih =>
    intro pd h1 h2 h3 h4 h5 h6 h7 h8 h9 h10 h11 h12
    exfalso
    have := (h6 (cur, ce, cd) (List.mem_cons_self _ _)).1
    exact absurd hdep (by simp only [qDepth] at this; omega)
  | case5 cur ce cd rest res vis ve vep hguard hvis hdep visited1 htr =>
    intro pd h1 h2 h3 h4 h5 h6 h7 h8 h9 h10 h11 h12
    exfalso
    simp only [visited1] at htr
    have hnd : (vis ++ [cur.id]).Nodup := by
      rw [List.nodup_append]
      exact ⟨h1 ▸ h2, List.nodup_singleton _,
        fun i hi hi2 => hvis ((List.mem_singleton.mp hi2) ▸ hi)⟩
    have hsubr : ∀ x ∈ vis ++ [cur.id], x ∈ reachAtMost db s md := by
      intro x hx
      rcases List.mem_append.mp hx with h | h
      · rw [h1] at h
        obtain ⟨d, hd⟩ := keys_mem_iff.mp h
        exact reach_le_subset db s (h5 _ hd).1 (h5 _ hd).2
      · rw [List.mem_singleton.mp h]
        have h6f := h6 (cur, ce, cd) (List.mem_cons_self _ _)
        exact reach_le_subset db s h6f.1 h6f.2
    have : (vis ++ [cur.id]).length < mn :=
      Nat.lt_of_le_of_lt (nodup_length_le_card _ _ hnd hsubr) hcard
    omega
  | case6 cur ce cd rest res vis ve vep hguard hvis hdep result1 visited1 step2 htr records st ih =>
    intro pd h1 h2 h3 h4 h5 h6 h7 h8 h9 h10 h11 h12
    have hce : ce = none := h12 (cur, ce, cd) (List.mem_cons_self _ _)
    subst hce
    simp only [result1, visited1, step2, records, st] at htr ih
    have hcdle : cd ≤ md := by
      have := (h6 (cur, none, cd) (List.mem_cons_self _ _)).1
      simpa [qDepth] using this
    have hreachcur : cur.id ∈ reachAtMost db s cd :=
      (h6 (cur, none, cd) (List.mem_cons_self _ _)).2
    have hkeys1 : vis ++ [cur.id] = (pd ++ [(cur.id, cd)]).map Prod.fst := by
      rw [List.map_append, h1]
      rfl
    have hnodup1 : ((pd ++ [(cur.id, cd)]).map Prod.fst).Nodup := by
      rw [List.map_append, List.nodup_append]
      refine ⟨h2, List.nodup_singleton _, ?_⟩
      intro i hi hi2
      apply hvis
      rw [h1]
      have : i = cur.id := by simpa using hi2
      rw [← this]
      exact hi
    have hx1 : (cur.id, cd) ∈ pd ++ [(cur.id, cd)] :=
      List.mem_append.mpr (Or.inr (List.mem_singleton.mpr rfl))
    have hpdle1 : ∀ p ∈ pd ++ [(cur.id, cd)], p.2 ≤ cd := by
      intro p hp
      rcases List.mem_append.mp hp with h | h
      · exact h9 p h (cur, none, cd) (List.mem_cons_self _ _)
      · rw [List.mem_singleton.mp h]
    have h7m : (qDepth ((cur, none, cd) : QueueEntry) ::
        rest.map qDepth).Pairwise (· ≤ ·) := by
      rw [← List.map_cons]
      exact h7
    have hfrontle : ∀ e ∈ rest, cd ≤ qDepth e := by
      intro e he
      exact (List.pairwise_cons.mp h7m).1 (qDepth e) (List.mem_map.mpr ⟨e, he, rfl⟩)
    have hbandle : ∀ e ∈ rest, qDepth e ≤ cd + 1 := by
      intro e he
      have := h8 e (List.mem_cons_of_mem _ he) (cur, none, cd) (List.mem_cons_self _ _)
      simpa [qDepth] using this
    have hrecords : (db.neighbors cur.id).take 1000 = db.neighbors cur.id :=
      List.take_of_length_le (hdeg cur.id)
    have hsubpd1 : ∀ p ∈ pd, p ∈ pd ++ [(cur.id, cd)] :=
      fun p hp => List.mem_append.mpr (Or.inl hp)
    have hfront1 : ∃ d, d ≤ qDepth ((cur, none, cd) : QueueEntry) ∧
        (qId ((cur, none, cd) : QueueEntry), d) ∈ pd ++ [(cur.id, cd)] :=
      ⟨cd, Nat.le_refl _, hx1⟩
    obtain ⟨F1, F2, F3, F4⟩ := processRecords_C1 db md cur.id cd
      (pd ++ [(cur.id, cd)]) (vis ++ [cur.id]) rest hkeys1 hnodup1 hx1 hpdle1
      hcoh ((db.neighbors cur.id).take 1000)
      (fun r hr => List.take_subset _ _ hr)
      { edges := res.edges, visited_edges := ve, visited_edge_pairs := vep,
        queue_tail := [] }
      (by intro e he; exact absurd he (List.not_mem_nil e))
      (by
        show ∀ eid ∈ ve, VEWitness db (pd ++ [(cur.id, cd)])
          (rest ++ ([] : List QueueEntry)) eid
        rw [List.append_nil]
        intro eid hei
        exact VEWitness_skip_front hfront1
          (VEWitness_mono_pd hsubpd1 (h11 eid hei)))
    rw [bfsLoop, if_neg hguard, if_neg hvis, if_neg hdep]
    dsimp only
    rw [if_neg htr]
    obtain ⟨pdF, hsub, hnodes, hnodupF, hsound, hcomp, hdisc, htrf⟩ :=
      ih (pd ++ [(cur.id, cd)]) hkeys1 hnodup1
        (by simp [h3])
        h4
        (by
          intro p hp
          rcases List.mem_append.mp hp with h | h
          · exact h5 p h
          · rw [List.mem_singleton.mp h]
            exact ⟨hcdle, hreachcur⟩)
        (by
          intro e he
          rcases List.mem_append.mp he with h | h
          · exact h6 e (List.mem_cons_of_mem _ h)
          · obtain ⟨hnone, hdq, hcdlt, r2, hr2, hr2t⟩ := F1 e h
            refine ⟨by omega, ?_⟩
            rw [hdq]
            exact reach_step db s hreachcur
              (List.mem_filterMap.mpr ⟨r2, hr2, hr2t⟩))
        (by
          rw [List.map_append]
          rw [List.pairwise_append]
          refine ⟨(List.pairwise_cons.mp h7m).2, ?_, ?_⟩
          · apply pairwise_le_of_all
            intro a ha
            obtain ⟨e, he, hea⟩ := List.mem_map.mp ha
            rw [← hea, (F1 e he).2.1]
          · intro a ha b hb
            obtain ⟨e1, he1, hea⟩ := List.mem_map.mp ha
            obtain ⟨e2, he2, heb⟩ := List.mem_map.mp hb
            rw [← hea, ← heb, (F1 e2 he2).2.1]
            exact hbandle e1 he1)
        (by
          intro e1 he1 e2 he2
          rcases List.mem_append.mp he1 with ha | ha <;>
            rcases List.mem_append.mp he2 with hb | hb
          · exact h8 e1 (List.mem_cons_of_mem _ ha) e2 (List.mem_cons_of_mem _ hb)
          · rw [(F1 e2 hb).2.1]
            have := hbandle e1 ha
            omega
          · rw [(F1 e1 ha).2.1]
            have := hfrontle e2 hb
            omega
          · rw [(F1 e1 ha).2.1, (F1 e2 hb).2.1]
            omega)
        (by
          intro p hp e he
          have hple : p.2 ≤ cd := hpdle1 p hp
          rcases List.mem_append.mp he with h | h
          · exact le_trans hple (hfrontle e h)
          · rw [(F1 e h).2.1]
            omega)
        (by
          intro p hp hlt t ht
          rcases List.mem_append.mp hp with h | h
          · have hcov := h10 p h hlt t ht
            have hcov1 := CovQ_skip_front hfront1 (CovQ_mono_pd hsubpd1 hcov)
            apply CovQ_mono_queue ?_ hcov1
            intro e he
            exact List.mem_append.mpr (Or.inl he)
          · have hpeq := List.mem_singleton.mp h
            subst hpeq
            obtain ⟨r, hrmem, hrt⟩ := List.mem_filterMap.mp ht
            exact F4 hlt r (by rw [hrecords]; exact hrmem) t hrt)
        F2
        (by
          intro e he
          rcases List.mem_append.mp he with h | h
          · exact h12 e (List.mem_cons_of_mem _ h)
          · exact (F1 e h).1)
    refine ⟨pdF, fun p hp => hsub _ (hsubpd1 p hp), hnodes, hnodupF, hsound,
      hcomp, ?_, htrf⟩
    intro e he
    rcases List.mem_cons.mp he with hef | hef
    · subst hef
      exact ⟨cd, Nat.le_refl _, hsub _ hx1⟩
    · obtain ⟨d, hd1, hd2⟩ := hdisc e (List.mem_append.mpr (Or.inl hef))
      exact ⟨d, hd1, hd2⟩

theorem pdF_covers_reach (db : GraphView) (s : String) (md : Nat)
    (pdF : List (String × Nat))
    (hstart : (s, 0) ∈ pdF)
    (hcomp : ∀ p ∈ pdF, p.2 < md → ∀ t ∈ nbrIds db p.1,
      ∃ dt, dt ≤ p.2 + 1 ∧ (t, dt) ∈ pdF) :
    ∀ k, k ≤ md → ∀ x ∈ reachAtMost db s k, ∃ d, d ≤ k ∧ (x, d) ∈ pdF := by
  intro k
  induction k with
  | zero =>
    intro _ x hx
    have : x = s := by simpa [reachAtMost] using hx
    subst this
    exact ⟨0, Nat.le_refl _, hstart⟩
  | succ k ih =>
    intro hk x hx
    rw [reachAtMost] at hx
    rcases Finset.mem_union.mp hx with hx | hx
    · obtain ⟨d, hd1, hd2⟩ := ih (by omega) x hx
      exact ⟨d, by omega, hd2⟩
    · obtain ⟨y, hy, hxy⟩ := Finset.mem_biUnion.mp hx
      obtain ⟨d, hd1, hd2⟩ := ih (by omega) y hy
      have hdlt : d < md := by omega
      obtain ⟨dt, hdt1, hdt2⟩ := hcomp (y, d) hd2 hdlt x (List.mem_toFinset.mp hxy)
      exact ⟨dt, by omega, hdt2⟩

/-- C1 (amended): when the start label resolves, every stored relationship
list fits within the 1000-record neighbor fetch, edge ids are
store-coherent, and `maxNodes` strictly exceeds the number of nodes
reachable within `maxDepth` (undirected), the fallback extraction returns a
node sequence whose id set is exactly the reachable set, with
`is_truncated = false`.  (At exact equality the node set still equals the
reachable set but the flag is set — see the counterexample.) -/
theorem C1_extract_equals_reachable (db : GraphView) (label : String)
    (md mn : Nat) (props : List (String × String))
    (hget : db.getNode label = some props)
    (hdeg : ∀ n, (db.neighbors n).length ≤ 1000)
    (hcoh : EdgeCoherent db)
    (hcard : (reachAtMost db label md).card < mn) :
    ((robust_fallback db label md mn).nodes.map KnowledgeGraphNode.id).toFinset
      = reachAtMost db label md ∧
    (robust_fallback db label md mn).is_truncated = false := by
  unfold robust_fallback
  rw [hget]
  dsimp only
  obtain ⟨pdF, hsub, hnodes, hnodup, hsound, hcomp, hdisc, htrf⟩ :=
    bfsLoop_reach db label md mn hdeg hcoh hcard
      [({ id := label, labels := [label], properties := props }, none, 0)]
      {} [] [] [] [] rfl List.nodup_nil rfl rfl
      (fun p hp => absurd hp (List.not_mem_nil p))
      (by
        intro e he
        rw [List.mem_singleton.mp he]
        exact ⟨Nat.zero_le _, reach_self db label 0⟩)
      (by simp)
      (by
        intro e1 he1 e2 he2
        rw [List.mem_singleton.mp he1, List.mem_singleton.mp he2]
        exact Nat.le_succ _)
      (fun p hp => absurd hp (List.not_mem_nil p))
      (fun p hp => absurd hp (List.not_mem_nil p))
      (fun eid hei => absurd hei (List.not_mem_nil eid))
      (by
        intro e he
        rw [List.mem_singleton.mp he])
  have hstart : (label, 0) ∈ pdF := by
    obtain ⟨d, hd1, hd2⟩ := hdisc _ (List.mem_singleton.mpr rfl)
    have : d = 0 := Nat.le_zero.mp hd1
    subst this
    exact hd2
  constructor
  · rw [hnodes]
    apply Finset.ext
    intro x
    constructor
    · intro hx
      obtain ⟨d, hd⟩ := keys_mem_iff.mp (List.mem_toFinset.mp hx)
      exact reach_le_subset db label (hsound _ hd).1 (hsound _ hd).2
    · intro hx
      obtain ⟨d, _, hd2⟩ := pdF_covers_reach db label md pdF hstart hcomp md
        (Nat.le_refl _) x hx
      exact List.mem_toFinset.mpr (keys_mem_iff.mpr ⟨d, hd2⟩)
  · exact htrf

/-- Witness for C1 (amended) on the single-node graph with a slack budget. -/
theorem C1_extract_equals_reachable_witness :
    (reachAtMost singleDB "A" 2).card < 3 ∧
    ((robust_fallback singleDB "A" 2 3).nodes.map KnowledgeGraphNode.id).toFinset
      = reachAtMost singleDB "A" 2 ∧
    (robust_fallback singleDB "A" 2 3).is_truncated = false := by
  refine ⟨?_, C1_extract_equals_reachable singleDB "A" 2 3 [] rfl
    (fun n => by simp [singleDB]) ?_ ?_⟩
  · simp [reachAtMost, nbrIds, singleDB]
  · intro a b ra rb hra
    simp [singleDB] at hra
  · simp [reachAtMost, nbrIds, singleDB]

/-- C1 counterexample to the claim as stated: on the single-node graph the
reachable set has exactly `maxNodes = 1` nodes (so the claim demands
`is_truncated = false`), yet the fallback sets `is_truncated = true` when
the visited count reaches the budget (`neo4j_impl.py` lines 922-928). -/
theorem C1_exact_budget_counterexample :
    (reachAtMost singleDB "A" 2).card = 1 ∧
    (robust_fallback singleDB "A" 2 1).nodes.map KnowledgeGraphNode.id = ["A"] ∧
    (robust_fallback singleDB "A" 2 1).is_truncated = true := by
  refine ⟨?_, ?_, ?_⟩
  · simp [reachAtMost, nbrIds, singleDB]
  · simp [robust_fallback, singleDB, bfsLoop]
  · simp [robust_fallback, singleDB, bfsLoop]

end LightRAG
